import Mathlib

/-!
Shallow embedding of the guard-patrol simulator from `src/day06/src/lib.rs`
(the day-6 puzzle solver), together with theorems about the full walk, the
cycle-detection walk, the trap finder, parsing and termination bounds.

Machine integers (`usize`) are modelled by `Nat`; the only arithmetic the
source performs on coordinates is `checked_add`/`checked_sub` with deltas in
`{-1, 0, 1}` on in-bounds coordinates, where overflow is impossible and
underflow is the `checked_sub` failure modelled by `Option`.  Rust panics
(out-of-bounds indexing during parsing) are modelled by `Option`/`Except`
failure values; in-place mutation of the grid is modelled by explicit state
passing of the `Map` value.
-/

namespace Day06

/-- 2D coordinate on the map (struct `Location` of the source; `x` is the
column, `y` the row). -/
structure Location where
  x : Nat
  y : Nat
deriving DecidableEq

/-- Guard facing direction (enum `Direction` of the source). -/
inductive Direction where
  | left
  | right
  | up
  | down
deriving DecidableEq

/-- Guard state: position plus direction (struct `Guard` of the source). -/
structure Guard where
  loc : Location
  dir : Direction
deriving DecidableEq

instance : Inhabited Guard := ⟨⟨⟨0, 0⟩, Direction.up⟩⟩

instance : Fintype Direction where
  elems := {Direction.left, Direction.right, Direction.up, Direction.down}
  complete := fun x => by cases x <;> decide

/-- `Direction::rotate`: 90 degrees clockwise. -/
def Direction.rotate : Direction → Direction
  | .right => .down
  | .down => .left
  | .left => .up
  | .up => .right

/-- `Direction::signum`: the `(col_step, row_step)` pair of the source. -/
def Direction.signum : Direction → Int × Int
  | .left => (0, -1)
  | .right => (0, 1)
  | .up => (-1, 0)
  | .down => (1, 0)

/-- `TryFrom<char> for Direction` (`none` models the `Err` case). -/
def Direction.fromChar : Char → Option Direction
  | '<' => some .left
  | '>' => some .right
  | '^' => some .up
  | 'v' => some .down
  | _ => none

/-- `From<Direction> for char`.  The source maps `Left` to the right-facing
glyph and `Right` to the left-facing glyph; the embedding reproduces that
choice faithfully (it is invisible to every computed count). -/
def Direction.toChar : Direction → Char
  | .left => '>'
  | .right => '<'
  | .up => '^'
  | .down => 'v'

/-- `Location::cordination_add` (source spelling kept): checked addition of a
signed delta to an unsigned coordinate; `checked_sub` underflow is `none`. -/
def Location.cordinationAdd (cor : Nat) (delta : Int) : Option Nat :=
  if 0 ≤ delta then some (cor + delta.toNat)
  else if (-delta).toNat ≤ cor then some (cor - (-delta).toNat)
  else none

/-- `Location::delta`. -/
def Location.delta (l : Location) (dx dy : Int) : Option Location :=
  match Location.cordinationAdd l.y dy with
  | some y =>
    match Location.cordinationAdd l.x dx with
    | some x => some ⟨x, y⟩
    | none => none
  | none => none

/-- Read a grid cell (`data[y][x]`); out-of-range reads yield a placeholder
(the source only indexes in bounds, where the two agree). -/
def getCell (d : List (List Char)) (y x : Nat) : Char :=
  (((d.get? y).getD []).get? x).getD ' '

/-- Write a grid cell (`data[y][x] = c`); out-of-range writes are dropped by
`List.set` (the source only writes in bounds). -/
def setCell (d : List (List Char)) (y x : Nat) (c : Char) : List (List Char) :=
  d.set y (((d.get? y).getD []).set x c)

/-- The lab map (struct `Map` of the source). -/
structure Map where
  data : List (List Char)
  height : Nat
  width : Nat
  guard : Option Guard
deriving DecidableEq

/-- The inner loop of `Map::find_guard` over one row: scan columns
`x, x + 1, ...` with `n` cells left to inspect.  `Except.error` models the
index panic hit when the row is shorter than the scanned width. -/
def scanRow (rowData : List Char) (col : Nat) : Nat → Nat → Except Unit (Option Guard)
  | _, 0 => Except.ok none
  | x, n+1 =>
    match rowData.get? x with
    | none => Except.error ()
    | some c =>
      match Direction.fromChar c with
      | some dir => Except.ok (some ⟨⟨x, col⟩, dir⟩)
      | none => scanRow rowData col (x+1) n

/-- `Map::find_guard`, row by row. -/
def findGuardRows (data : List (List Char)) (width : Nat) : Nat → Nat → Except Unit (Option Guard)
  | _, 0 => Except.ok none
  | col, n+1 =>
    match data.get? col with
    | none => Except.error ()
    | some rowData =>
      match scanRow rowData col 0 width with
      | Except.error e => Except.error e
      | Except.ok (some g) => Except.ok (some g)
      | Except.ok none => findGuardRows data width (col+1) n

/-- `Map::new`; `none` models a panic (empty input, or the out-of-bounds row
read of `find_guard` on a ragged grid).  No other validation is performed by
the source. -/
def Map.new (data : List (List Char)) : Option Map :=
  match data.get? 0 with
  | none => none
  | some row0 =>
    match findGuardRows data row0.length 0 data.length with
    | Except.error _ => none
    | Except.ok g => some ⟨data, data.length, row0.length, g⟩

/-- `Map::update_guard`. -/
def Map.updateGuard (m : Map) (loc : Location) (dir : Direction) : Map :=
  { m with guard := some ⟨loc, dir⟩, data := setCell m.data loc.y loc.x dir.toChar }

/-- One iteration of the `while` loop of `Map::walk`; the identity once the
guard has departed. -/
def Map.walkStep (m : Map) : Map :=
  match m.guard with
  | none => m
  | some g =>
    let s := g.dir.signum
    match g.loc.delta s.2 s.1 with
    | some nextLoc =>
      if nextLoc.x < m.width ∧ nextLoc.y < m.height then
        if getCell m.data nextLoc.y nextLoc.x = '#' then
          m.updateGuard g.loc g.dir.rotate
        else
          { m with data := setCell m.data g.loc.y g.loc.x 'X' }.updateGuard nextLoc g.dir
      else
        { m with data := setCell m.data g.loc.y g.loc.x 'X', guard := none }
    | none => { m with data := setCell m.data g.loc.y g.loc.x 'X', guard := none }

/-- `Map::walk`, run for at most `n` loop iterations.  The Rust loop is
unbounded; every theorem below either exhibits or quantifies over a
sufficient `n`, and the boxed-in analysis shows why no uniform bound can
exist. -/
def Map.walkFuel : Nat → Map → Map
  | 0, m => m
  | n+1, m => Map.walkFuel n m.walkStep

/-- `Map::count_steps`. -/
def Map.countSteps (m : Map) : Nat :=
  (List.range m.height).foldl
    (fun acc col =>
      (List.range m.width).foldl
        (fun acc2 row => if getCell m.data col row = 'X' then acc2 + 1 else acc2) acc)
    0

/-- Specification helper: the cells occupied by the guard during the first
`n` iterations of `Map::walk`, in visit order. -/
def Map.occList : Nat → Map → List (Nat × Nat)
  | 0, _ => []
  | n+1, m =>
    match m.guard with
    | none => []
    | some g => (g.loc.y, g.loc.x) :: Map.occList n m.walkStep

/-- Result of `Map::track_guard`: `cycleHit` and `noGuard` are the two
`Some(visited)` returns of the source (repeated state, respectively loop exit
without a guard), `gone` is the `None` return (the guard left the map), and
`fuelOut` marks exhaustion of the explicit iteration budget of the
embedding. -/
inductive TrackResult where
  | cycleHit (vis : List Guard)
  | noGuard (vis : List Guard)
  | gone
  | fuelOut
deriving DecidableEq

/-- Whether the Rust return value is `Some` (this is all `find_traps` uses). -/
def TrackResult.isSome : TrackResult → Bool
  | .cycleHit _ => true
  | .noGuard _ => true
  | .gone => false
  | .fuelOut => false

/-- The loop of `Map::track_guard` with an explicit iteration budget; `vis`
is the visited-state set (a list with set membership, mirroring the
`HashSet<Guard>`, whose `insert` returns `false` exactly when the element is
already present). -/
def Map.trackFuel : Nat → Map → List Guard → TrackResult
  | 0, _, _ => .fuelOut
  | n+1, m, vis =>
    match m.guard with
    | none => .noGuard vis
    | some g =>
      if g ∈ vis then .cycleHit vis
      else
        let s := g.dir.signum
        match g.loc.delta s.2 s.1 with
        | some nextLoc =>
          if nextLoc.x < m.width ∧ nextLoc.y < m.height then
            if getCell m.data nextLoc.y nextLoc.x = '#' then
              Map.trackFuel n { m with guard := some ⟨g.loc, g.dir.rotate⟩ } (g :: vis)
            else
              Map.trackFuel n
                { m with guard := some ⟨nextLoc, g.dir⟩,
                         data := setCell m.data g.loc.y g.loc.x '*' } (g :: vis)
          else .gone
        | none => .gone

/-- Iteration budget sufficient for `track_guard`: one more than the number
of distinct in-bounds guard states.  The termination theorems below prove it
is never exhausted on well-formed maps, so the budgeted loop computes what
the unbounded Rust loop computes. -/
def Map.trackBound (m : Map) : Nat := m.height * m.width * 4 + 1

/-- `Map::track_guard`, started on a fresh visited set. -/
def Map.trackGuard (m : Map) : TrackResult := Map.trackFuel m.trackBound m []

/-- `Map::find_traps`. -/
def Map.findTraps (m : Map) : Nat :=
  (List.range m.height).foldl
    (fun acc col =>
      (List.range m.width).foldl
        (fun acc2 row =>
          if getCell m.data col row = '.' then
            if (Map.trackGuard { m with data := setCell m.data col row '#' }).isSome
            then acc2 + 1 else acc2
          else acc2) acc)
    0

/-- State-passing rendition of `Map::find_traps`: the second component is the
`&self` receiver threaded through the candidate loop (each candidate
simulates on its own modified copy, which is dropped afterwards). -/
def Map.findTrapsSt (m : Map) : Nat × Map :=
  (List.range m.height).foldl
    (fun st col =>
      (List.range m.width).foldl
        (fun st2 row =>
          if getCell st2.2.data col row = '.' then
            if (Map.trackGuard { st2.2 with data := setCell st2.2.data col row '#' }).isSome
            then (st2.1 + 1, st2.2) else (st2.1, st2.2)
          else st2) st)
    (0, m)

/-- Obstacle layer of a map. -/
def Map.obstAt (m : Map) (y x : Nat) : Bool := getCell m.data y x == '#'

/-- The single-step guard dynamics shared by `walk` and `track_guard`:
`none` is departure (the candidate next cell falls outside the grid, or the
coordinate subtraction underflows), a rotation keeps the position, a move
keeps the direction. -/
def stepPure (obst : Nat → Nat → Bool) (W H : Nat) (g : Guard) : Option Guard :=
  let s := g.dir.signum
  match g.loc.delta s.2 s.1 with
  | some nl =>
    if nl.x < W ∧ nl.y < H then
      if obst nl.y nl.x then some ⟨g.loc, g.dir.rotate⟩ else some ⟨nl, g.dir⟩
    else none
  | none => none

/-- Guard trajectory: the state after `n` steps of `stepPure`, absorbing at
departure. -/
def traj (obst : Nat → Nat → Bool) (W H : Nat) : Nat → Option Guard → Option Guard
  | 0, og => og
  | _+1, none => none
  | n+1, some g => traj obst W H n (stepPure obst W H g)

/-- The trajectory reaches at index `j` a state already reached strictly
earlier. -/
def repAt (obst : Nat → Nat → Bool) (W H : Nat) (g0 : Guard) (j : Nat) : Prop :=
  ∃ g, traj obst W H j (some g0) = some g ∧
    ∃ i, i < j ∧ traj obst W H i (some g0) = some g

/-- Reference cycle-detection loop over the pure dynamics: `none` is fuel
exhaustion, `some none` departure, `some (some vis)` a detected repeat. -/
def refTrack (obst : Nat → Nat → Bool) (W H : Nat) :
    Nat → Guard → List Guard → Option (Option (List Guard))
  | 0, _, _ => none
  | n+1, g, vis =>
    if g ∈ vis then some (some vis)
    else
      match stepPure obst W H g with
      | some g2 => refTrack obst W H n g2 (g :: vis)
      | none => some none

/-- Map the head of a `TrackResult` onto the reference loop's result type. -/
def TrackResult.toOpt : TrackResult → Option (Option (List Guard))
  | .cycleHit vis => some (some vis)
  | .noGuard vis => some (some vis)
  | .gone => some none
  | .fuelOut => none

instance optionBAllDecidable {α : Type _} (p : α → Prop) [DecidablePred p] (o : Option α) :
    Decidable (∀ a ∈ o, p a) :=
  match o with
  | none => isTrue (by intro a h; exact absurd h (by simp))
  | some b => decidable_of_iff (p b) (by simp)

/-- Well-formedness: rectangular `height × width` data and, when present, a
guard standing in bounds on a non-obstacle cell.  `Map::new` establishes
this for every rectangular input, and both walks preserve it. -/
def Map.Inv (m : Map) : Prop :=
  m.data.length = m.height ∧ (∀ row ∈ m.data, row.length = m.width) ∧
    ∀ g ∈ m.guard, g.loc.x < m.width ∧ g.loc.y < m.height ∧
      getCell m.data g.loc.y g.loc.x ≠ '#'

/-- No cell of the grid carries a visited mark yet. -/
def Map.noX (m : Map) : Prop :=
  ∀ y < m.height, ∀ x < m.width, getCell m.data y x ≠ 'X'

/-- The guard does not stand on a visited mark. -/
def Map.xok (m : Map) : Prop :=
  ∀ g ∈ m.guard, getCell m.data g.loc.y g.loc.x ≠ 'X'

/-- All in-bounds guard states of an `H × W` grid. -/
def stateSpace (H W : Nat) : Finset Guard :=
  ((Finset.range H) ×ˢ ((Finset.range W) ×ˢ (Finset.univ : Finset Direction))).image
    (fun p => ⟨⟨p.2.1, p.1⟩, p.2.2⟩)

/-- The canonical 10 × 10 sample grid of day 6 (from the source's tests). -/
def sampleRows : List (List Char) :=
  ["....#.....", ".........#", "..........", "..#.......", ".......#..",
   "..........", ".#..^.....", "........#.", "#.........", "......#..."].map
    String.toList

/-- The parsed sample map. -/
def sampleMap : Map := ⟨sampleRows, 10, 10, some ⟨⟨4, 6⟩, Direction.up⟩⟩

/-- A guard boxed in by obstacles on all four sides. -/
def boxedRows : List (List Char) := [".#.", "#^#", ".#."].map String.toList

/-- The parsed boxed-in map. -/
def boxedMap : Map := ⟨boxedRows, 3, 3, some ⟨⟨1, 1⟩, Direction.up⟩⟩

/-- A 1 × 2 map whose guard departs upward immediately. -/
def tinyMap : Map := ⟨[['^', '.']], 1, 2, some ⟨⟨0, 0⟩, Direction.up⟩⟩

/-- A grid with no guard marker. -/
def noGuardRows : List (List Char) := [['.', '.'], ['.', '.']]

/-- A grid with two guard markers. -/
def twoGuardRows : List (List Char) := [['^', 'v']]

/-- A ragged grid whose second row is longer than the first. -/
def longRowRows : List (List Char) := [['.', '^'], ['.', 'v', '#']]

/-- A ragged grid whose second row is shorter than the first and holds no
guard glyph before the missing cell. -/
def shortRowRows : List (List Char) := [['.', '.'], ['.']]

instance (m : Map) : Decidable m.Inv :=
  decidable_of_iff
    (m.data.length = m.height ∧ (∀ row ∈ m.data, row.length = m.width) ∧
      ∀ g ∈ m.guard, g.loc.x < m.width ∧ g.loc.y < m.height ∧
        getCell m.data g.loc.y g.loc.x ≠ '#') Iff.rfl

instance (m : Map) : Decidable m.noX :=
  decidable_of_iff (∀ y < m.height, ∀ x < m.width, getCell m.data y x ≠ 'X') Iff.rfl

instance (m : Map) : Decidable m.xok :=
  decidable_of_iff (∀ g ∈ m.guard, getCell m.data g.loc.y g.loc.x ≠ 'X') Iff.rfl

theorem lt_of_get?_eq_some {α : Type _} {l : List α} {n : Nat} {a : α}
    (h : l.get? n = some a) : n < l.length := by
  by_contra hc
  rw [List.get?_eq_none.mpr (Nat.le_of_not_lt hc)] at h
  exact Option.noConfusion h

/-- Full description of a single cell write. -/
theorem getCell_setCell (d : List (List Char)) (y x : Nat) (c : Char) (y2 x2 : Nat) :
    getCell (setCell d y x c) y2 x2 =
      if y2 = y ∧ x2 = x ∧ y < d.length ∧ x < ((d.get? y).getD []).length then c
      else getCell d y2 x2 := by
  by_cases hyy : y2 = y
  · subst hyy
    by_cases hy : y2 < d.length
    · cases hrow : d.get? y2 with
      | none => exact absurd (List.get?_eq_none.mp hrow) (Nat.not_le.mpr hy)
      | some row =>
        by_cases hxx : x2 = x
        · subst hxx
          by_cases hx : x2 < row.length
          · rw [if_pos ⟨rfl, rfl, hy, by simpa using hx⟩]
            unfold getCell setCell
            simp only [List.get?_set_eq_of_lt _ hy, hrow, Option.getD_some]
            rw [List.get?_set_eq_of_lt _ hx, Option.getD_some]
          · rw [if_neg (fun hh => hx (by simpa using hh.2.2.2))]
            unfold getCell setCell
            simp only [List.get?_set_eq_of_lt _ hy, hrow, Option.getD_some,
              List.set_eq_of_length_le (Nat.le_of_not_lt hx)]
        · rw [if_neg (fun hh => hxx hh.2.1)]
          unfold getCell setCell
          simp only [List.get?_set_eq_of_lt _ hy, hrow, Option.getD_some,
            List.get?_set_ne _ _ (fun hh => hxx hh.symm)]
    · rw [if_neg (fun hh => hy hh.2.2.1)]
      unfold setCell
      rw [List.set_eq_of_length_le (Nat.le_of_not_lt hy)]
  · rw [if_neg (fun hh => hyy hh.1)]
    unfold getCell setCell
    rw [List.get?_set_ne _ _ (fun hh => hyy hh.symm)]

theorem setCell_length (d : List (List Char)) (y x : Nat) (c : Char) :
    (setCell d y x c).length = d.length := List.length_set ..

theorem rowLen_of_rect {d : List (List Char)} {H W : Nat} (h1 : d.length = H)
    (h2 : ∀ row ∈ d, row.length = W) {y : Nat} (hy : y < H) :
    ((d.get? y).getD []).length = W := by
  cases hrow : d.get? y with
  | none =>
    have := List.get?_eq_none.mp hrow
    omega
  | some row =>
    rw [Option.getD_some]
    exact h2 row (List.get?_mem hrow)

theorem setCell_rect {d : List (List Char)} {H W : Nat} (h1 : d.length = H)
    (h2 : ∀ row ∈ d, row.length = W) (y x : Nat) (c : Char) :
    (setCell d y x c).length = H ∧ ∀ row ∈ setCell d y x c, row.length = W := by
  refine ⟨by rw [setCell_length, h1], ?_⟩
  intro row hrow
  by_cases hy : y < H
  · rcases List.mem_or_eq_of_mem_set hrow with hmem | hset
    · exact h2 row hmem
    · subst hset
      rw [List.length_set]
      exact rowLen_of_rect h1 h2 hy
  · unfold setCell at hrow
    rw [List.set_eq_of_length_le (by omega)] at hrow
    exact h2 row hrow

theorem toChar_ne (d : Direction) :
    d.toChar ≠ '#' ∧ d.toChar ≠ 'X' ∧ d.toChar ≠ '.' ∧ d.toChar ≠ '*' := by
  cases d <;> exact ⟨by decide, by decide, by decide, by decide⟩

/-- The candidate cell, direction by direction. -/
theorem delta_dir (l : Location) (d : Direction) :
    l.delta (d.signum).2 (d.signum).1 =
      match d with
      | .up => if 1 ≤ l.y then some ⟨l.x, l.y - 1⟩ else none
      | .down => some ⟨l.x, l.y + 1⟩
      | .left => if 1 ≤ l.x then some ⟨l.x - 1, l.y⟩ else none
      | .right => some ⟨l.x + 1, l.y⟩ := by
  cases d
  case up =>
    simp only [Direction.signum, Location.delta, Location.cordinationAdd]
    norm_num
    by_cases h : 1 ≤ l.y <;> simp [h]
  case left =>
    simp only [Direction.signum, Location.delta, Location.cordinationAdd]
    norm_num
    by_cases h : 1 ≤ l.x <;> simp [h]
  case down =>
    simp [Direction.signum, Location.delta, Location.cordinationAdd]
  case right =>
    simp [Direction.signum, Location.delta, Location.cordinationAdd]

/-- The candidate cell one step ahead is never the current cell. -/
theorem delta_ne_self (g : Guard) (nl : Location)
    (h : g.loc.delta (g.dir.signum).2 (g.dir.signum).1 = some nl) :
    ¬(nl.y = g.loc.y ∧ nl.x = g.loc.x) := by
  rw [delta_dir] at h
  rcases g with ⟨⟨gx, gy⟩, dir⟩
  cases dir <;> simp only at h
  case up =>
    split at h
    · cases h; simp; omega
    · exact Option.noConfusion h
  case left =>
    split at h
    · cases h; simp; omega
    · exact Option.noConfusion h
  case down => cases h; simp
  case right => cases h; simp

/-- Exhaustive description of one `walk` iteration with the guard present. -/
theorem walkStep_cases (m : Map) (g : Guard) (hg : m.guard = some g) :
    (g.loc.delta (g.dir.signum).2 (g.dir.signum).1 = none ∧
      m.walkStep = { m with data := setCell m.data g.loc.y g.loc.x 'X', guard := none }) ∨
    (∃ nl, g.loc.delta (g.dir.signum).2 (g.dir.signum).1 = some nl ∧
      ¬(nl.x < m.width ∧ nl.y < m.height) ∧
      m.walkStep = { m with data := setCell m.data g.loc.y g.loc.x 'X', guard := none }) ∨
    (∃ nl, g.loc.delta (g.dir.signum).2 (g.dir.signum).1 = some nl ∧
      (nl.x < m.width ∧ nl.y < m.height) ∧ getCell m.data nl.y nl.x = '#' ∧
      m.walkStep = { m with
        data := setCell m.data g.loc.y g.loc.x g.dir.rotate.toChar,
        guard := some ⟨g.loc, g.dir.rotate⟩ }) ∨
    (∃ nl, g.loc.delta (g.dir.signum).2 (g.dir.signum).1 = some nl ∧
      (nl.x < m.width ∧ nl.y < m.height) ∧ ¬(getCell m.data nl.y nl.x = '#') ∧
      m.walkStep = { m with
        data := setCell (setCell m.data g.loc.y g.loc.x 'X') nl.y nl.x g.dir.toChar,
        guard := some ⟨nl, g.dir⟩ }) := by
  cases hd : g.loc.delta (g.dir.signum).2 (g.dir.signum).1 with
  | none =>
    refine Or.inl ⟨rfl, ?_⟩
    simp [Map.walkStep, hg, hd]
  | some nl =>
    by_cases hb : nl.x < m.width ∧ nl.y < m.height
    · by_cases ho : getCell m.data nl.y nl.x = '#'
      · refine Or.inr (Or.inr (Or.inl ⟨nl, rfl, hb, ho, ?_⟩))
        simp [Map.walkStep, hg, hd, hb, ho, Map.updateGuard]
      · refine Or.inr (Or.inr (Or.inr ⟨nl, rfl, hb, ho, ?_⟩))
        simp [Map.walkStep, hg, hd, hb, ho, Map.updateGuard]
    · refine Or.inr (Or.inl ⟨nl, rfl, hb, ?_⟩)
      simp [Map.walkStep, hg, hd, hb]

theorem walkStep_guard_none {m : Map} (hg : m.guard = none) : m.walkStep = m := by
  simp [Map.walkStep, hg]

theorem walkStep_dims (m : Map) :
    (m.walkStep).height = m.height ∧ (m.walkStep).width = m.width := by
  cases hg : m.guard with
  | none => rw [walkStep_guard_none hg]; exact ⟨rfl, rfl⟩
  | some g =>
    rcases walkStep_cases m g hg with ⟨_, h⟩ | ⟨nl, _, _, h⟩ | ⟨nl, _, _, _, h⟩ | ⟨nl, _, _, _, h⟩ <;>
      rw [h] <;> exact ⟨rfl, rfl⟩

theorem mem_guard_of_eq {m : Map} {g : Guard} (hg : m.guard = some g) : g ∈ m.guard := by
  rw [hg]; rfl

/-- Writing a non-obstacle character over a non-obstacle cell leaves the
obstacle layer untouched. -/
theorem obst_setCell (d : List (List Char)) (y x : Nat) (c : Char) (hc : c ≠ '#')
    (hold : getCell d y x ≠ '#') (y2 x2 : Nat) :
    (getCell (setCell d y x c) y2 x2 == '#') = (getCell d y2 x2 == '#') := by
  rw [getCell_setCell]
  by_cases hcond : y2 = y ∧ x2 = x ∧ y < d.length ∧ x < ((d.get? y).getD []).length
  · rw [if_pos hcond]
    obtain ⟨hy2, hx2, _, _⟩ := hcond
    subst hy2; subst hx2
    simp [hc, hold]
  · rw [if_neg hcond]

/-- One `walk` iteration moves the guard exactly as the pure dynamics do. -/
theorem walkStep_guard_eq (m : Map) (g : Guard) (hg : m.guard = some g) :
    (m.walkStep).guard = stepPure m.obstAt m.width m.height g := by
  rcases walkStep_cases m g hg with ⟨hd, hstep⟩ | ⟨nl, hd, hb, hstep⟩ |
      ⟨nl, hd, hb, ho, hstep⟩ | ⟨nl, hd, hb, ho, hstep⟩ <;> rw [hstep]
  · simp [stepPure, hd]
  · simp [stepPure, hd, hb]
  · simp [stepPure, hd, hb, Map.obstAt, ho]
  · simp [stepPure, hd, hb, Map.obstAt, ho]

theorem Inv_walkStep (m : Map) (hInv : m.Inv) : (m.walkStep).Inv := by
  obtain ⟨h1, h2, h3⟩ := hInv
  cases hg : m.guard with
  | none => rw [walkStep_guard_none hg]; exact ⟨h1, h2, h3⟩
  | some g =>
    obtain ⟨hgx, hgy, hgc⟩ := h3 g (mem_guard_of_eq hg)
    have hrl := rowLen_of_rect h1 h2 hgy
    rcases walkStep_cases m g hg with ⟨hd, hstep⟩ | ⟨nl, hd, hb, hstep⟩ |
        ⟨nl, hd, hb, ho, hstep⟩ | ⟨nl, hd, hb, ho, hstep⟩ <;> rw [hstep]
    · exact ⟨(setCell_rect h1 h2 _ _ _).1, (setCell_rect h1 h2 _ _ _).2, by simp⟩
    · exact ⟨(setCell_rect h1 h2 _ _ _).1, (setCell_rect h1 h2 _ _ _).2, by simp⟩
    · refine ⟨(setCell_rect h1 h2 _ _ _).1, (setCell_rect h1 h2 _ _ _).2, ?_⟩
      intro g2 hg2
      cases hg2
      refine ⟨hgx, hgy, ?_⟩
      rw [getCell_setCell, if_pos ⟨rfl, rfl, by omega, by rw [hrl]; exact hgx⟩]
      exact (toChar_ne _).1
    · have hrect2 := setCell_rect h1 h2 g.loc.y g.loc.x 'X'
      refine ⟨(setCell_rect hrect2.1 hrect2.2 _ _ _).1,
        (setCell_rect hrect2.1 hrect2.2 _ _ _).2, ?_⟩
      intro g2 hg2
      cases hg2
      refine ⟨hb.1, hb.2, ?_⟩
      rw [getCell_setCell,
        if_pos ⟨rfl, rfl, by omega, by rw [rowLen_of_rect hrect2.1 hrect2.2 hb.2]; exact hb.1⟩]
      exact (toChar_ne _).1

theorem xok_walkStep (m : Map) (hInv : m.Inv) : (m.walkStep).xok := by
  obtain ⟨h1, h2, h3⟩ := hInv
  cases hg : m.guard with
  | none =>
    rw [walkStep_guard_none hg]
    intro g2 hg2
    rw [hg] at hg2
    exact absurd hg2 (by simp)
  | some g =>
    obtain ⟨hgx, hgy, hgc⟩ := h3 g (mem_guard_of_eq hg)
    have hrl := rowLen_of_rect h1 h2 hgy
    rcases walkStep_cases m g hg with ⟨hd, hstep⟩ | ⟨nl, hd, hb, hstep⟩ |
        ⟨nl, hd, hb, ho, hstep⟩ | ⟨nl, hd, hb, ho, hstep⟩ <;> rw [hstep]
    · intro g2 hg2; exact absurd hg2 (by simp)
    · intro g2 hg2; exact absurd hg2 (by simp)
    · intro g2 hg2
      cases hg2
      rw [getCell_setCell, if_pos ⟨rfl, rfl, by omega, by rw [hrl]; exact hgx⟩]
      exact (toChar_ne _).2.1
    · intro g2 hg2
      cases hg2
      have hrect2 := setCell_rect h1 h2 g.loc.y g.loc.x 'X'
      rw [getCell_setCell,
        if_pos ⟨rfl, rfl, by omega, by rw [rowLen_of_rect hrect2.1 hrect2.2 hb.2]; exact hb.1⟩]
      exact (toChar_ne _).2.1

theorem obstAt_walkStep (m : Map) (hInv : m.Inv) (y x : Nat) :
    (m.walkStep).obstAt y x = m.obstAt y x := by
  obtain ⟨h1, h2, h3⟩ := hInv
  cases hg : m.guard with
  | none => rw [walkStep_guard_none hg]
  | some g =>
    obtain ⟨hgx, hgy, hgc⟩ := h3 g (mem_guard_of_eq hg)
    rcases walkStep_cases m g hg with ⟨hd, hstep⟩ | ⟨nl, hd, hb, hstep⟩ |
        ⟨nl, hd, hb, ho, hstep⟩ | ⟨nl, hd, hb, ho, hstep⟩ <;> rw [hstep] <;>
      unfold Map.obstAt <;> simp only
    · exact obst_setCell _ _ _ _ (by decide) hgc y x
    · exact obst_setCell _ _ _ _ (by decide) hgc y x
    · exact obst_setCell _ _ _ _ (toChar_ne _).1 hgc y x
    · have hinner : getCell (setCell m.data g.loc.y g.loc.x 'X') nl.y nl.x ≠ '#' := by
        have h := obst_setCell m.data g.loc.y g.loc.x 'X' (by decide) hgc nl.y nl.x
        intro hcon
        rw [hcon] at h
        simp [beq_iff_eq] at h
        exact ho h
      rw [obst_setCell _ _ _ _ (toChar_ne _).1 hinner y x,
        obst_setCell _ _ _ _ (by decide) hgc y x]

theorem walkFuel_guard_none {m : Map} (hg : m.guard = none) (n : Nat) :
    Map.walkFuel n m = m := by
  induction n with
  | zero => rfl
  | succ n ih =>
    show Map.walkFuel n m.walkStep = m
    rw [walkStep_guard_none hg]
    exact ih

theorem walkFuel_dims (n : Nat) : ∀ m : Map,
    (Map.walkFuel n m).height = m.height ∧ (Map.walkFuel n m).width = m.width := by
  induction n with
  | zero => exact fun m => ⟨rfl, rfl⟩
  | succ n ih =>
    intro m
    have h := ih m.walkStep
    have h2 := walkStep_dims m
    exact ⟨by rw [show Map.walkFuel (n+1) m = Map.walkFuel n m.walkStep from rfl, h.1, h2.1],
      by rw [show Map.walkFuel (n+1) m = Map.walkFuel n m.walkStep from rfl, h.2, h2.2]⟩

theorem traj_absorb (obst : Nat → Nat → Bool) (W H : Nat) (n : Nat) :
    traj obst W H n none = none := by
  cases n <;> rfl

theorem stepPure_congr (g : Guard) (obst obst2 : Nat → Nat → Bool) (W H : Nat)
    (hob : ∀ y x, obst y x = obst2 y x) :
    stepPure obst W H g = stepPure obst2 W H g := by
  unfold stepPure
  cases hd : g.loc.delta (g.dir.signum).2 (g.dir.signum).1 with
  | none => simp [hd]
  | some nl => simp [hd, hob nl.y nl.x]

/-- The guard chain of the full walk is the pure trajectory. -/
theorem walkFuel_traj (n : Nat) : ∀ (m : Map) (g : Guard) (obst : Nat → Nat → Bool) (W H : Nat),
    m.Inv → m.guard = some g → m.width = W → m.height = H →
    (∀ y x, m.obstAt y x = obst y x) →
    (Map.walkFuel n m).guard = traj obst W H n (some g) := by
  induction n with
  | zero =>
    intro m g obst W H _ hg _ _ _
    exact hg
  | succ n ih =>
    intro m g obst W H hInv hg hW hH hob
    have hcong : stepPure m.obstAt m.width m.height g = stepPure obst W H g := by
      subst hW; subst hH
      exact stepPure_congr g _ _ _ _ hob
    have hstep := walkStep_guard_eq m g hg
    show (Map.walkFuel n m.walkStep).guard = traj obst W H (n+1) (some g)
    have htr : traj obst W H (n+1) (some g) = traj obst W H n (stepPure obst W H g) := rfl
    rw [htr]
    cases hg2 : (m.walkStep).guard with
    | none =>
      rw [walkFuel_guard_none hg2, hg2, ← hcong, ← hstep, hg2, traj_absorb]
    | some g2 =>
      rw [ih m.walkStep g2 obst W H (Inv_walkStep m hInv) hg2
        (by rw [(walkStep_dims m).2, hW]) (by rw [(walkStep_dims m).1, hH])
        (fun y x => by rw [obstAt_walkStep m hInv, hob])]
      rw [← hcong, ← hstep, hg2]

theorem ne_hash_of_obst_eq {d d2 : List (List Char)} {y x : Nat}
    (h : (getCell d2 y x == '#') = (getCell d y x == '#'))
    (ho : getCell d y x ≠ '#') : getCell d2 y x ≠ '#' := by
  intro hcon
  rw [hcon] at h
  simp [beq_iff_eq] at h
  exact ho h

theorem trackFuel_guard_none (n : Nat) {m : Map} (hg : m.guard = none) (vis : List Guard) :
    Map.trackFuel (n+1) m vis = .noGuard vis := by
  simp [Map.trackFuel, hg]

theorem trackFuel_mem (n : Nat) {m : Map} {g : Guard} (hg : m.guard = some g)
    {vis : List Guard} (hmem : g ∈ vis) :
    Map.trackFuel (n+1) m vis = .cycleHit vis := by
  simp [Map.trackFuel, hg, hmem]

/-- Exhaustive description of one `track_guard` iteration on a fresh state. -/
theorem trackFuel_cases (n : Nat) {m : Map} {g : Guard} (hg : m.guard = some g)
    {vis : List Guard} (hnm : g ∉ vis) :
    (g.loc.delta (g.dir.signum).2 (g.dir.signum).1 = none ∧
      Map.trackFuel (n+1) m vis = .gone) ∨
    (∃ nl, g.loc.delta (g.dir.signum).2 (g.dir.signum).1 = some nl ∧
      ¬(nl.x < m.width ∧ nl.y < m.height) ∧ Map.trackFuel (n+1) m vis = .gone) ∨
    (∃ nl, g.loc.delta (g.dir.signum).2 (g.dir.signum).1 = some nl ∧
      (nl.x < m.width ∧ nl.y < m.height) ∧ getCell m.data nl.y nl.x = '#' ∧
      Map.trackFuel (n+1) m vis =
        Map.trackFuel n { m with guard := some ⟨g.loc, g.dir.rotate⟩ } (g :: vis)) ∨
    (∃ nl, g.loc.delta (g.dir.signum).2 (g.dir.signum).1 = some nl ∧
      (nl.x < m.width ∧ nl.y < m.height) ∧ ¬(getCell m.data nl.y nl.x = '#') ∧
      Map.trackFuel (n+1) m vis =
        Map.trackFuel n { m with
          data := setCell m.data g.loc.y g.loc.x '*',
          guard := some ⟨nl, g.dir⟩ } (g :: vis)) := by
  cases hd : g.loc.delta (g.dir.signum).2 (g.dir.signum).1 with
  | none =>
    refine Or.inl ⟨rfl, ?_⟩
    simp [Map.trackFuel, hg, hnm, hd]
  | some nl =>
    by_cases hb : nl.x < m.width ∧ nl.y < m.height
    · by_cases ho : getCell m.data nl.y nl.x = '#'
      · refine Or.inr (Or.inr (Or.inl ⟨nl, rfl, hb, ho, ?_⟩))
        simp [Map.trackFuel, hg, hnm, hd, hb, ho]
      · refine Or.inr (Or.inr (Or.inr ⟨nl, rfl, hb, ho, ?_⟩))
        simp [Map.trackFuel, hg, hnm, hd, hb, ho]
    · refine Or.inr (Or.inl ⟨nl, rfl, hb, ?_⟩)
      simp [Map.trackFuel, hg, hnm, hd, hb]

theorem Inv_trackRot {m : Map} {g : Guard} (hInv : m.Inv) (hg : m.guard = some g) :
    ({ m with guard := some ⟨g.loc, g.dir.rotate⟩ } : Map).Inv := by
  obtain ⟨h1, h2, h3⟩ := hInv
  obtain ⟨hgx, hgy, hgc⟩ := h3 g (mem_guard_of_eq hg)
  exact ⟨h1, h2, fun g2 hg2 => by cases hg2; exact ⟨hgx, hgy, hgc⟩⟩

theorem Inv_trackMove {m : Map} {g : Guard} {nl : Location} (hInv : m.Inv)
    (hg : m.guard = some g) (hb : nl.x < m.width ∧ nl.y < m.height)
    (ho : getCell m.data nl.y nl.x ≠ '#') :
    ({ m with
        data := setCell m.data g.loc.y g.loc.x '*',
        guard := some ⟨nl, g.dir⟩ } : Map).Inv := by
  obtain ⟨h1, h2, h3⟩ := hInv
  obtain ⟨hgx, hgy, hgc⟩ := h3 g (mem_guard_of_eq hg)
  refine ⟨(setCell_rect h1 h2 _ _ _).1, (setCell_rect h1 h2 _ _ _).2, ?_⟩
  intro g2 hg2
  cases hg2
  exact ⟨hb.1, hb.2,
    ne_hash_of_obst_eq (obst_setCell m.data g.loc.y g.loc.x '*' (by decide) hgc nl.y nl.x) ho⟩

/-- The track loop computes, over any map, exactly what the reference loop
computes over the pure dynamics. -/
theorem trackFuel_toOpt (n : Nat) : ∀ (m : Map) (g : Guard) (vis : List Guard)
    (obst : Nat → Nat → Bool) (W H : Nat),
    m.Inv → m.guard = some g → m.width = W → m.height = H →
    (∀ y x, m.obstAt y x = obst y x) →
    (Map.trackFuel n m vis).toOpt = refTrack obst W H n g vis := by
  induction n with
  | zero => intros; rfl
  | succ n ih =>
    intro m g vis obst W H hInv hg hW hH hob
    subst hW; subst hH
    obtain ⟨h1, h2, h3⟩ := hInv
    obtain ⟨hgx, hgy, hgc⟩ := h3 g (mem_guard_of_eq hg)
    by_cases hmem : g ∈ vis
    · rw [trackFuel_mem n hg hmem]
      simp [refTrack, hmem, TrackResult.toOpt]
    · rcases trackFuel_cases n hg hmem with ⟨hd, htf⟩ | ⟨nl, hd, hb, htf⟩ |
          ⟨nl, hd, hb, ho, htf⟩ | ⟨nl, hd, hb, ho, htf⟩ <;> rw [htf]
      · have hsp : stepPure obst m.width m.height g = none := by
          rw [← stepPure_congr g m.obstAt obst _ _ hob]
          simp [stepPure, hd]
        simp [refTrack, hmem, hsp, TrackResult.toOpt]
      · have hsp : stepPure obst m.width m.height g = none := by
          rw [← stepPure_congr g m.obstAt obst _ _ hob]
          simp [stepPure, hd, hb]
        simp [refTrack, hmem, hsp, TrackResult.toOpt]
      · have hsp : stepPure obst m.width m.height g = some ⟨g.loc, g.dir.rotate⟩ := by
          rw [← stepPure_congr g m.obstAt obst _ _ hob]
          simp [stepPure, hd, hb, Map.obstAt, ho]
        rw [ih { m with guard := some ⟨g.loc, g.dir.rotate⟩ } ⟨g.loc, g.dir.rotate⟩
          (g :: vis) obst m.width m.height (Inv_trackRot ⟨h1, h2, h3⟩ hg) rfl rfl rfl hob]
        simp [refTrack, hmem, hsp]
      · have hsp : stepPure obst m.width m.height g = some ⟨nl, g.dir⟩ := by
          rw [← stepPure_congr g m.obstAt obst _ _ hob]
          simp [stepPure, hd, hb, Map.obstAt, ho]
        have hob2 : ∀ y x,
            ({ m with
                data := setCell m.data g.loc.y g.loc.x '*',
                guard := some ⟨nl, g.dir⟩ } : Map).obstAt y x = obst y x := by
          intro y x
          show (getCell (setCell m.data g.loc.y g.loc.x '*') y x == '#') = obst y x
          rw [obst_setCell m.data g.loc.y g.loc.x '*' (by decide) hgc y x]
          exact hob y x
        rw [ih { m with
              data := setCell m.data g.loc.y g.loc.x '*',
              guard := some ⟨nl, g.dir⟩ } ⟨nl, g.dir⟩ (g :: vis) obst m.width m.height
          (Inv_trackMove ⟨h1, h2, h3⟩ hg hb ho) rfl rfl rfl hob2]
        simp [refTrack, hmem, hsp]

theorem traj_succ (obst : Nat → Nat → Bool) (W H : Nat) (n : Nat) :
    ∀ og : Option Guard,
      traj obst W H (n+1) og = (traj obst W H n og).bind (stepPure obst W H) := by
  induction n with
  | zero => intro og; cases og <;> rfl
  | succ n ih =>
    intro og
    cases og with
    | none => rw [traj_absorb, traj_absorb]; rfl
    | some g =>
      show traj obst W H (n+1) (stepPure obst W H g) = _
      rw [ih]
      rfl

theorem traj_add (obst : Nat → Nat → Bool) (W H : Nat) (a b : Nat) :
    ∀ og, traj obst W H (a + b) og = traj obst W H b (traj obst W H a og) := by
  induction a with
  | zero => intro og; rw [Nat.zero_add]; rfl
  | succ a ih =>
    intro og
    cases og with
    | none => rw [traj_absorb, traj_absorb, traj_absorb]
    | some g =>
      rw [Nat.succ_add]
      show traj obst W H (a + b) (stepPure obst W H g) = _
      rw [ih]
      rfl

theorem stepPure_inBounds {obst : Nat → Nat → Bool} {W H : Nat} {g g2 : Guard}
    (h : stepPure obst W H g = some g2) (hg : g.loc.x < W ∧ g.loc.y < H) :
    g2.loc.x < W ∧ g2.loc.y < H := by
  unfold stepPure at h
  cases hd : g.loc.delta (g.dir.signum).2 (g.dir.signum).1 with
  | none => simp [hd] at h
  | some nl =>
    simp only [hd] at h
    by_cases hb : nl.x < W ∧ nl.y < H
    · rw [if_pos hb] at h
      by_cases ho : obst nl.y nl.x
      · simp [ho] at h; cases h; exact hg
      · simp [ho] at h; cases h; exact hb
    · rw [if_neg hb] at h
      exact Option.noConfusion h

theorem traj_inBounds (obst : Nat → Nat → Bool) (W H : Nat) (n : Nat) :
    ∀ g g2 : Guard, g.loc.x < W ∧ g.loc.y < H →
      traj obst W H n (some g) = some g2 → g2.loc.x < W ∧ g2.loc.y < H := by
  induction n with
  | zero =>
    intro g g2 hg h
    simp only [traj] at h
    injection h with h
    subst h
    exact hg
  | succ n ih =>
    intro g g2 hg h
    show g2.loc.x < W ∧ g2.loc.y < H
    have h2 : traj obst W H n (stepPure obst W H g) = some g2 := h
    cases hs : stepPure obst W H g with
    | none => rw [hs, traj_absorb] at h2; exact Option.noConfusion h2
    | some g3 =>
      rw [hs] at h2
      exact ih g3 g2 (stepPure_inBounds hs hg) h2

/-- A revisited state makes the trajectory periodic: it never departs. -/
theorem repAt_no_depart {obst : Nat → Nat → Bool} {W H : Nat} {g0 : Guard} {j : Nat}
    (hrep : repAt obst W H g0 j) :
    ∀ n, traj obst W H n (some g0) ≠ none := by
  obtain ⟨g, hj, i, hij, hi⟩ := hrep
  have hper : ∀ t, traj obst W H (i + t) (some g0) = traj obst W H (j + t) (some g0) := by
    intro t
    rw [traj_add, traj_add, hi, hj]
  have hle : ∀ n, n ≤ j → traj obst W H n (some g0) ≠ none := by
    intro n hn hcon
    have hjn : traj obst W H j (some g0) = none := by
      rw [show j = n + (j - n) by omega, traj_add, hcon, traj_absorb]
    rw [hj] at hjn
    exact Option.noConfusion hjn
  intro n
  induction n using Nat.strong_induction_on with
  | _ n ihn =>
    by_cases hn : n ≤ j
    · exact hle n hn
    · intro hcon
      have ht : traj obst W H (i + (n - j)) (some g0) = none := by
        rw [hper (n - j), show j + (n - j) = n by omega]
        exact hcon
      exact ihn (i + (n - j)) (by omega) ht

theorem stateSpace_card (H W : Nat) : (stateSpace H W).card ≤ H * W * 4 := by
  unfold stateSpace
  refine le_trans Finset.card_image_le ?_
  rw [Finset.card_product, Finset.card_product, Finset.card_range, Finset.card_range,
    Finset.card_univ, show Fintype.card Direction = 4 from by decide]
  exact Nat.le_of_eq (Nat.mul_assoc H W 4).symm

theorem mem_stateSpace {H W : Nat} {g : Guard} (hx : g.loc.x < W) (hy : g.loc.y < H) :
    g ∈ stateSpace H W := by
  unfold stateSpace
  refine Finset.mem_image.mpr ⟨(g.loc.y, (g.loc.x, g.dir)), ?_, rfl⟩
  simp [Finset.mem_product, hx, hy]

theorem repAt_of_two {obst : Nat → Nat → Bool} {W H : Nat} {g0 : Guard} {a b : Nat}
    (hab : a < b)
    (ha : traj obst W H a (some g0) ≠ none) (hb : traj obst W H b (some g0) ≠ none)
    (heq : (traj obst W H a (some g0)).getD default =
      (traj obst W H b (some g0)).getD default) :
    repAt obst W H g0 b := by
  cases hta : traj obst W H a (some g0) with
  | none => exact absurd hta ha
  | some ga =>
    cases htb : traj obst W H b (some g0) with
    | none => exact absurd htb hb
    | some gb =>
      rw [hta, htb] at heq
      simp only [Option.getD_some] at heq
      subst heq
      exact ⟨ga, htb, a, hab, hta⟩

/-- Pigeonhole on the finite state space: a trajectory that stays on the grid
for `H * W * 4` steps has already revisited a state. -/
theorem traj_pigeon (obst : Nat → Nat → Bool) (W H : Nat) (g0 : Guard)
    (hg0 : g0.loc.x < W ∧ g0.loc.y < H)
    (hall : ∀ j, j ≤ H * W * 4 → traj obst W H j (some g0) ≠ none) :
    ∃ j, j ≤ H * W * 4 ∧ repAt obst W H g0 j := by
  have hmap : ∀ j ∈ Finset.range (H * W * 4 + 1),
      (traj obst W H j (some g0)).getD default ∈ stateSpace H W := by
    intro j hj
    rw [Finset.mem_range] at hj
    cases ht : traj obst W H j (some g0) with
    | none => exact absurd ht (hall j (by omega))
    | some g =>
      simp only [Option.getD_some]
      have hbd := traj_inBounds obst W H j g0 g hg0 ht
      exact mem_stateSpace hbd.1 hbd.2
  have hcard : (stateSpace H W).card < (Finset.range (H * W * 4 + 1)).card := by
    rw [Finset.card_range]
    exact Nat.lt_succ_of_le (stateSpace_card H W)
  obtain ⟨a, ha, b, hb, hne, heq⟩ :=
    Finset.exists_ne_map_eq_of_card_lt_of_maps_to hcard hmap
  rw [Finset.mem_range] at ha hb
  rcases Nat.lt_or_ge a b with hab | hab
  · exact ⟨b, by omega, repAt_of_two hab (hall a (by omega)) (hall b (by omega)) heq⟩
  · have hba : b < a := by omega
    exact ⟨a, by omega, repAt_of_two hba (hall b (by omega)) (hall a (by omega)) heq.symm⟩

/-- Main characterization of the reference cycle-detection loop, generalized
over a partially completed run. -/
theorem refTrack_spec (obst : Nat → Nat → Bool) (W H : Nat) (g0 : Guard) (n : Nat) :
    ∀ (k : Nat) (g : Guard) (vis : List Guard),
    traj obst W H k (some g0) = some g →
    (∀ x, x ∈ vis ↔ ∃ i, i < k ∧ traj obst W H i (some g0) = some x) →
    (∀ j, j < k → ¬ repAt obst W H g0 j) →
    vis.Nodup →
    ((∀ vis2, refTrack obst W H n g vis = some (some vis2) →
        ∃ j, repAt obst W H g0 j ∧ (∀ i, i < j → ¬ repAt obst W H g0 i) ∧
          (∀ x, x ∈ vis2 ↔ ∃ i, i < j ∧ traj obst W H i (some g0) = some x) ∧
          vis2.Nodup) ∧
      (refTrack obst W H n g vis = some none →
        ∃ j, traj obst W H j (some g0) ≠ none ∧ traj obst W H (j+1) (some g0) = none) ∧
      (refTrack obst W H n g vis = none →
        (∀ j, j < k + n → ¬ repAt obst W H g0 j) ∧
          traj obst W H (k + n) (some g0) ≠ none)) := by
  induction n with
  | zero =>
    intro k g vis hk hvis hnorep hnd
    refine ⟨?_, ?_, ?_⟩
    · intro vis2 h; exact absurd h (by simp [refTrack])
    · intro h; exact absurd h (by simp [refTrack])
    · intro _
      refine ⟨by simpa using hnorep, ?_⟩
      rw [Nat.add_zero, hk]
      exact fun hc => Option.noConfusion hc
  | succ n ih =>
    intro k g vis hk hvis hnorep hnd
    by_cases hmem : g ∈ vis
    · have hrepk : repAt obst W H g0 k := by
        obtain ⟨i, hik, hi⟩ := (hvis g).mp hmem
        exact ⟨g, hk, i, hik, hi⟩
      have hres : refTrack obst W H (n+1) g vis = some (some vis) := by
        simp [refTrack, hmem]
      refine ⟨?_, ?_, ?_⟩
      · intro vis2 h
        rw [hres] at h
        injection h with h
        injection h with h
        subst h
        exact ⟨k, hrepk, fun i hik => hnorep i hik, hvis, hnd⟩
      · intro h; rw [hres] at h; exact absurd h (by simp)
      · intro h; rw [hres] at h; exact absurd h (by simp)
    · have hnrk : ¬ repAt obst W H g0 k := by
        rintro ⟨g2, hg2, i, hik, hi⟩
        rw [hk] at hg2
        injection hg2 with hg2
        subst hg2
        exact hmem ((hvis g).mpr ⟨i, hik, hi⟩)
      cases hs : stepPure obst W H g with
      | none =>
        have hres : refTrack obst W H (n+1) g vis = some none := by
          simp [refTrack, hmem, hs]
        have hdep : traj obst W H (k+1) (some g0) = none := by
          rw [traj_succ, hk]
          exact hs
        refine ⟨?_, ?_, ?_⟩
        · intro vis2 h; rw [hres] at h; exact absurd h (by simp)
        · intro _; exact ⟨k, by rw [hk]; simp, hdep⟩
        · intro h; rw [hres] at h; exact absurd h (by simp)
      | some g2 =>
        have ht2 : traj obst W H (k+1) (some g0) = some g2 := by
          rw [traj_succ, hk]
          exact hs
        have hvis2 : ∀ x, x ∈ g :: vis ↔
            ∃ i, i < k+1 ∧ traj obst W H i (some g0) = some x := by
          intro x
          constructor
          · intro hx
            rcases List.mem_cons.mp hx with hx | hx
            · subst hx; exact ⟨k, Nat.lt_succ_self k, hk⟩
            · obtain ⟨i, hik, hi⟩ := (hvis x).mp hx
              exact ⟨i, by omega, hi⟩
          · rintro ⟨i, hik, hi⟩
            rcases Nat.lt_or_ge i k with hik2 | hik2
            · exact List.mem_cons.mpr (Or.inr ((hvis x).mpr ⟨i, hik2, hi⟩))
            · have hik3 : i = k := by omega
              subst hik3
              rw [hk] at hi
              injection hi with hi
              subst hi
              exact List.mem_cons_self ..
        have hnorep2 : ∀ j, j < k+1 → ¬ repAt obst W H g0 j := by
          intro j hj
          rcases Nat.lt_or_ge j k with h2 | h2
          · exact hnorep j h2
          · have hjk : j = k := by omega
            subst hjk
            exact hnrk
        have hnd2 : (g :: vis).Nodup := List.nodup_cons.mpr ⟨hmem, hnd⟩
        have hres : refTrack obst W H (n+1) g vis = refTrack obst W H n g2 (g :: vis) := by
          simp [refTrack, hmem, hs]
        obtain ⟨ih1, ih2, ih3⟩ := ih (k+1) g2 (g :: vis) ht2 hvis2 hnorep2 hnd2
        refine ⟨?_, ?_, ?_⟩
        · intro vis2 h; rw [hres] at h; exact ih1 vis2 h
        · intro h; rw [hres] at h; exact ih2 h
        · intro h
          rw [hres] at h
          obtain ⟨ha, hb⟩ := ih3 h
          refine ⟨fun j hj => ha j (by omega), ?_⟩
          rw [show k + (n+1) = (k+1) + n by omega]
          exact hb

theorem refTrack_shapes (obst : Nat → Nat → Bool) (W H n : Nat) (g : Guard)
    (vis : List Guard) :
    (∃ v, refTrack obst W H n g vis = some (some v)) ∨
      refTrack obst W H n g vis = some none ∨ refTrack obst W H n g vis = none := by
  cases h : refTrack obst W H n g vis with
  | none => exact Or.inr (Or.inr rfl)
  | some o =>
    cases o with
    | none => exact Or.inr (Or.inl rfl)
    | some v => exact Or.inl ⟨v, rfl⟩

theorem trackFuel_ne_noGuard (n : Nat) : ∀ (m : Map) (g : Guard) (vis vis2 : List Guard),
    m.guard = some g → Map.trackFuel n m vis ≠ .noGuard vis2 := by
  induction n with
  | zero =>
    intro m g vis vis2 hg h
    exact TrackResult.noConfusion h
  | succ n ih =>
    intro m g vis vis2 hg h
    by_cases hmem : g ∈ vis
    · rw [trackFuel_mem n hg hmem] at h
      exact TrackResult.noConfusion h
    · rcases trackFuel_cases n hg hmem with ⟨hd, htf⟩ | ⟨nl, hd, hb, htf⟩ |
          ⟨nl, hd, hb, ho, htf⟩ | ⟨nl, hd, hb, ho, htf⟩ <;> rw [htf] at h
      · exact TrackResult.noConfusion h
      · exact TrackResult.noConfusion h
      · exact ih _ ⟨g.loc, g.dir.rotate⟩ _ _ rfl h
      · exact ih _ ⟨nl, g.dir⟩ _ _ rfl h

theorem trackGuard_run (m : Map) (g0 : Guard) (hInv : m.Inv) (hg : m.guard = some g0) :
    (m.trackGuard).toOpt =
      refTrack m.obstAt m.width m.height m.trackBound g0 [] :=
  trackFuel_toOpt m.trackBound m g0 [] m.obstAt m.width m.height hInv hg rfl rfl
    (fun _ _ => rfl)

/-- Everything `track_guard` can do on a well-formed map with a guard, stated
against the pure trajectory: the returned visited set on a cycle is exactly
the set of states recorded strictly before the first revisited index, a
`gone` return pinpoints the departure step, and the run always ends in one of
these two outcomes (in particular the iteration budget is never
exhausted). -/
theorem trackGuard_spec (m : Map) (g0 : Guard) (hInv : m.Inv) (hg : m.guard = some g0) :
    (∀ vis, m.trackGuard = .cycleHit vis →
        ∃ j, repAt m.obstAt m.width m.height g0 j ∧
          (∀ i, i < j → ¬ repAt m.obstAt m.width m.height g0 i) ∧
          (∀ x, x ∈ vis ↔
            ∃ i, i < j ∧ traj m.obstAt m.width m.height i (some g0) = some x) ∧
          vis.Nodup) ∧
    (m.trackGuard = .gone →
        ∃ j, traj m.obstAt m.width m.height j (some g0) ≠ none ∧
          traj m.obstAt m.width m.height (j+1) (some g0) = none) ∧
    ((∃ vis, m.trackGuard = .cycleHit vis) ∨ m.trackGuard = .gone) := by
  have hrun := trackGuard_run m g0 hInv hg
  obtain ⟨s1, s2, s3⟩ :=
    refTrack_spec m.obstAt m.width m.height g0 m.trackBound 0 g0 [] rfl (by simp)
      (by omega) List.nodup_nil
  refine ⟨?_, ?_, ?_⟩
  · intro vis h
    refine s1 vis ?_
    rw [← hrun, h]
    rfl
  · intro h
    refine s2 ?_
    rw [← hrun, h]
    rfl
  · rcases refTrack_shapes m.obstAt m.width m.height m.trackBound g0 [] with
      ⟨v, hv⟩ | hv | hv
    · rw [← hrun] at hv
      cases htg : m.trackGuard with
      | cycleHit vis => exact Or.inl ⟨vis, rfl⟩
      | noGuard vis => exact absurd htg (trackFuel_ne_noGuard _ m g0 [] vis hg)
      | gone => rw [htg] at hv; exact Option.noConfusion (Option.some.inj hv)
      | fuelOut => rw [htg] at hv; exact Option.noConfusion hv
    · rw [← hrun] at hv
      cases htg : m.trackGuard with
      | cycleHit vis =>
        rw [htg] at hv
        exact Option.noConfusion (Option.some.inj hv)
      | noGuard vis => exact absurd htg (trackFuel_ne_noGuard _ m g0 [] vis hg)
      | gone => exact Or.inr rfl
      | fuelOut => rw [htg] at hv; exact Option.noConfusion hv
    · exfalso
      obtain ⟨hnorep, hnn⟩ := s3 hv
      obtain ⟨_, _, h3⟩ := hInv
      obtain ⟨hg0x, hg0y, _⟩ := h3 g0 (mem_guard_of_eq hg)
      have hall : ∀ j, j ≤ m.height * m.width * 4 →
          traj m.obstAt m.width m.height j (some g0) ≠ none := by
        intro j hj hcon
        apply hnn
        rw [show 0 + m.trackBound = j + (m.trackBound - j) from by
            unfold Map.trackBound; omega,
          traj_add, hcon, traj_absorb]
      obtain ⟨j, hj, hrep⟩ :=
        traj_pigeon m.obstAt m.width m.height g0 ⟨hg0x, hg0y⟩ hall
      exact hnorep j (by unfold Map.trackBound; omega) hrep

/-- The visited set returned on a cycle holds at most `H * W * 4` states. -/
theorem trackGuard_vis_len (m : Map) (g0 : Guard) (hInv : m.Inv) (hg : m.guard = some g0)
    (vis : List Guard) (h : m.trackGuard = .cycleHit vis) :
    vis.length ≤ m.height * m.width * 4 := by
  obtain ⟨j, _, _, hmem, hnd⟩ := (trackGuard_spec m g0 hInv hg).1 vis h
  obtain ⟨_, _, h3⟩ := hInv
  obtain ⟨hg0x, hg0y, _⟩ := h3 g0 (mem_guard_of_eq hg)
  calc vis.length = vis.toFinset.card := (List.toFinset_card_of_nodup hnd).symm
    _ ≤ (stateSpace m.height m.width).card := by
        refine Finset.card_le_card ?_
        intro x hx
        rw [List.mem_toFinset] at hx
        obtain ⟨i, _, hi⟩ := (hmem x).mp hx
        have hbd := traj_inBounds m.obstAt m.width m.height i g0 x ⟨hg0x, hg0y⟩ hi
        exact mem_stateSpace hbd.1 hbd.2
    _ ≤ m.height * m.width * 4 := stateSpace_card m.height m.width

theorem foldl_count (P : Nat → Prop) [DecidablePred P] (l : List Nat) :
    ∀ a : Nat, l.foldl (fun acc x => if P x then acc + 1 else acc) a
      = a + l.countP (fun x => decide (P x)) := by
  induction l with
  | nil => intro a; simp
  | cons x xs ih =>
    intro a
    rw [List.foldl_cons, ih, List.countP_cons]
    by_cases h : P x
    · simp [h]; omega
    · simp [h]

theorem foldl_shift (f : Nat → Nat → Nat) (c : Nat → Nat)
    (hf : ∀ a x, f a x = a + c x) (l : List Nat) :
    ∀ a : Nat, l.foldl f a = a + (l.map c).sum := by
  induction l with
  | nil => intro a; simp
  | cons x xs ih =>
    intro a
    rw [List.foldl_cons, hf, ih]
    simp [Nat.add_assoc]

theorem range_map_sum (f : Nat → Nat) (n : Nat) :
    ((List.range n).map f).sum = ∑ i ∈ Finset.range n, f i := by
  induction n with
  | zero => simp
  | succ n ih =>
    rw [List.range_succ, List.map_append, List.sum_append, Finset.sum_range_succ, ih]
    simp

theorem countP_eq_sum_map (p : Nat → Bool) (l : List Nat) :
    l.countP p = (l.map (fun x => if p x then 1 else 0)).sum := by
  induction l with
  | nil => simp
  | cons x xs ih =>
    rw [List.countP_cons, List.map_cons, List.sum_cons, ih]
    by_cases h : p x
    · simp [h]
      omega
    · simp [h]

theorem countP_range_card (P : Nat → Prop) [DecidablePred P] (n : Nat) :
    (List.range n).countP (fun x => decide (P x)) = ((Finset.range n).filter P).card := by
  rw [countP_eq_sum_map, range_map_sum, Finset.card_filter]
  simp

/-- The nested counting loop over a `height × width` index range counts the
cells satisfying the predicate. -/
theorem nested_count_card (H W : Nat) (P : Nat → Nat → Prop) [∀ c r, Decidable (P c r)] :
    (List.range H).foldl
      (fun acc col => (List.range W).foldl
        (fun a2 row => if P col row then a2 + 1 else a2) acc) 0
      = ((Finset.range H ×ˢ Finset.range W).filter fun p => P p.1 p.2).card := by
  rw [foldl_shift _ (fun col => ((Finset.range W).filter fun row => P col row).card)
    (fun a col => by rw [foldl_count (P col), countP_range_card (P col)]) _ 0,
    Nat.zero_add, range_map_sum]
  rw [Finset.card_eq_sum_card_fiberwise
    (f := Prod.fst) (t := Finset.range H) (fun p hp => by
      rw [Finset.mem_filter, Finset.mem_product] at hp
      exact hp.1.1)]
  refine Finset.sum_congr rfl ?_
  intro col hcol
  rw [Finset.mem_range] at hcol
  refine (Finset.card_bij (fun p _ => p.2) ?_ ?_ ?_).symm
  · intro p hp
    rw [Finset.mem_filter, Finset.mem_filter, Finset.mem_product] at hp
    rw [Finset.mem_filter]
    refine ⟨hp.1.1.2, ?_⟩
    have h2 := hp.1.2
    rw [hp.2] at h2
    exact h2
  · intro p hp q hq hpq
    rw [Finset.mem_filter] at hp hq
    have h1 : p.1 = q.1 := by rw [hp.2, hq.2]
    exact Prod.ext h1 hpq
  · intro row hrow
    rw [Finset.mem_filter, Finset.mem_range] at hrow
    refine ⟨(col, row), ?_, rfl⟩
    rw [Finset.mem_filter, Finset.mem_filter, Finset.mem_product, Finset.mem_range,
      Finset.mem_range]
    exact ⟨⟨⟨hcol, hrow.1⟩, hrow.2⟩, rfl⟩

theorem occList_none {m : Map} (hg : m.guard = none) (n : Nat) :
    Map.occList n m = [] := by
  cases n with
  | zero => rfl
  | succ n => simp [Map.occList, hg]

/-- Every occupied cell is in bounds. -/
theorem occList_inBounds (n : Nat) : ∀ (m : Map), m.Inv →
    ∀ p ∈ Map.occList n m, p.1 < m.height ∧ p.2 < m.width := by
  induction n with
  | zero => intro m _ p hp; exact absurd hp (by simp [Map.occList])
  | succ n ih =>
    intro m hInv p hp
    cases hg : m.guard with
    | none => rw [occList_none hg] at hp; exact absurd hp (by simp)
    | some g =>
      obtain ⟨h1, h2, h3⟩ := hInv
      obtain ⟨hgx, hgy, _⟩ := h3 g (mem_guard_of_eq hg)
      rw [show Map.occList (n+1) m = (g.loc.y, g.loc.x) :: Map.occList n m.walkStep from by
        simp [Map.occList, hg]] at hp
      rcases List.mem_cons.mp hp with hp | hp
      · subst hp; exact ⟨hgy, hgx⟩
      · have hdims := walkStep_dims m
        have := ih m.walkStep (Inv_walkStep m ⟨h1, h2, h3⟩) p hp
        rw [hdims.1, hdims.2] at this
        exact this

/-- Marking invariant of the full walk: an in-bounds cell carries the
visited mark after `n` iterations exactly when it was already marked or was
occupied meanwhile, and the guard is not currently standing on it. -/
theorem walkFuel_X (n : Nat) : ∀ (m : Map), m.Inv → m.xok →
    ∀ y x, y < m.height → x < m.width →
    (getCell (Map.walkFuel n m).data y x = 'X' ↔
      ((getCell m.data y x = 'X' ∨ (y, x) ∈ Map.occList n m) ∧
        ∀ g2, (Map.walkFuel n m).guard = some g2 → ¬(g2.loc.y = y ∧ g2.loc.x = x))) := by
  induction n with
  | zero =>
    intro m hInv hxok y x hy hx
    constructor
    · intro hX
      refine ⟨Or.inl hX, ?_⟩
      rintro g2 hg2 ⟨hy2, hx2⟩
      apply hxok g2 (mem_guard_of_eq hg2)
      rw [hy2, hx2]
      exact hX
    · rintro ⟨h1 | h1, _⟩
      · exact h1
      · exact absurd h1 (by simp [Map.occList])
  | succ n ih =>
    intro m hInv hxok y x hy hx
    cases hg : m.guard with
    | none =>
      have hws : m.walkStep = m := walkStep_guard_none hg
      have H := ih m hInv hxok y x hy hx
      rw [occList_none hg] at H
      rw [show Map.walkFuel (n+1) m = Map.walkFuel n m.walkStep from rfl, hws,
        occList_none hg]
      exact H
    | some g =>
      obtain ⟨h1, h2, h3⟩ := hInv
      obtain ⟨hgx, hgy, hgc⟩ := h3 g (mem_guard_of_eq hg)
      have hgX : getCell m.data g.loc.y g.loc.x ≠ 'X' := hxok g (mem_guard_of_eq hg)
      have hInv' := Inv_walkStep m ⟨h1, h2, h3⟩
      have hxok' := xok_walkStep m ⟨h1, h2, h3⟩
      have hdims := walkStep_dims m
      have IH := ih m.walkStep hInv' hxok' y x (by rw [hdims.1]; exact hy)
        (by rw [hdims.2]; exact hx)
      have hglr : g.loc.y < m.data.length := by omega
      have hglw : g.loc.x < ((m.data.get? g.loc.y).getD []).length := by
        rw [rowLen_of_rect h1 h2 hgy]
        exact hgx
      rw [show Map.walkFuel (n+1) m = Map.walkFuel n m.walkStep from rfl,
        show Map.occList (n+1) m = (g.loc.y, g.loc.x) :: Map.occList n m.walkStep from by
          simp [Map.occList, hg],
        IH]
      rcases walkStep_cases m g hg with ⟨hd, hstep⟩ | ⟨nl, hd, hb, hstep⟩ |
          ⟨nl, hd, hb, ho, hstep⟩ | ⟨nl, hd, hb, ho, hstep⟩
      · -- departure (coordinate underflow)
        have hdata2 : m.walkStep.data = setCell m.data g.loc.y g.loc.x 'X' := by rw [hstep]
        have hguard2 : m.walkStep.guard = none := by rw [hstep]
        rw [occList_none hguard2, walkFuel_guard_none hguard2, hdata2, getCell_setCell]
        by_cases hcell : y = g.loc.y ∧ x = g.loc.x
        · rw [if_pos ⟨hcell.1, hcell.2, hglr, hglw⟩]
          simp [hguard2, hcell.1, hcell.2]
        · rw [if_neg (fun hc => hcell ⟨hc.1, hc.2.1⟩)]
          simp only [hguard2, List.mem_singleton, List.mem_cons, Prod.mk.injEq]
          constructor
          · rintro ⟨hX | hX, hG⟩
            · exact ⟨Or.inl hX, hG⟩
            · exact absurd hX (by simp)
          · rintro ⟨hX | hX | hX, hG⟩
            · exact ⟨Or.inl hX, hG⟩
            · exact absurd ⟨hX.1, hX.2⟩ hcell
            · exact absurd hX (by simp)
      · -- departure (candidate outside the grid)
        have hdata2 : m.walkStep.data = setCell m.data g.loc.y g.loc.x 'X' := by rw [hstep]
        have hguard2 : m.walkStep.guard = none := by rw [hstep]
        rw [occList_none hguard2, walkFuel_guard_none hguard2, hdata2, getCell_setCell]
        by_cases hcell : y = g.loc.y ∧ x = g.loc.x
        · rw [if_pos ⟨hcell.1, hcell.2, hglr, hglw⟩]
          simp [hguard2, hcell.1, hcell.2]
        · rw [if_neg (fun hc => hcell ⟨hc.1, hc.2.1⟩)]
          simp only [hguard2, List.mem_singleton, List.mem_cons, Prod.mk.injEq]
          constructor
          · rintro ⟨hX | hX, hG⟩
            · exact ⟨Or.inl hX, hG⟩
            · exact absurd hX (by simp)
          · rintro ⟨hX | hX | hX, hG⟩
            · exact ⟨Or.inl hX, hG⟩
            · exact absurd ⟨hX.1, hX.2⟩ hcell
            · exact absurd hX (by simp)
      · -- rotation in place
        have hdata2 : m.walkStep.data = setCell m.data g.loc.y g.loc.x g.dir.rotate.toChar := by
          rw [hstep]
        have hguard2 : m.walkStep.guard = some ⟨g.loc, g.dir.rotate⟩ := by rw [hstep]
        rw [hdata2, getCell_setCell]
        by_cases hcell : y = g.loc.y ∧ x = g.loc.x
        · rw [if_pos ⟨hcell.1, hcell.2, hglr, hglw⟩]
          obtain ⟨hcy, hcx⟩ := hcell
          subst hcy; subst hcx
          cases n with
          | zero =>
            constructor
            · rintro ⟨hc | hc, _⟩
              · exact absurd hc (toChar_ne _).2.1
              · exact absurd hc (by simp [Map.occList])
            · rintro ⟨_, hG⟩
              exact absurd ⟨rfl, rfl⟩ (hG ⟨g.loc, g.dir.rotate⟩ hguard2)
          | succ n2 =>
            have hocc : (g.loc.y, g.loc.x) ∈ Map.occList (n2+1) m.walkStep := by
              rw [show Map.occList (n2+1) m.walkStep =
                  (g.loc.y, g.loc.x) :: Map.occList n2 m.walkStep.walkStep from by
                simp [Map.occList, hguard2]]
              exact List.mem_cons_self ..
            constructor
            · rintro ⟨_, hG⟩
              exact ⟨Or.inr (List.mem_cons_self ..), hG⟩
            · rintro ⟨_, hG⟩
              exact ⟨Or.inr hocc, hG⟩
        · rw [if_neg (fun hc => hcell ⟨hc.1, hc.2.1⟩)]
          simp only [List.mem_cons, Prod.mk.injEq]
          constructor
          · rintro ⟨hX, hG⟩
            exact ⟨by tauto, hG⟩
          · rintro ⟨hX | hX | hX, hG⟩
            · exact ⟨Or.inl hX, hG⟩
            · exact absurd ⟨hX.1, hX.2⟩ hcell
            · exact ⟨Or.inr hX, hG⟩
      · -- move forward
        have hdata2 : m.walkStep.data =
            setCell (setCell m.data g.loc.y g.loc.x 'X') nl.y nl.x g.dir.toChar := by
          rw [hstep]
        have hguard2 : m.walkStep.guard = some ⟨nl, g.dir⟩ := by rw [hstep]
        have hrect2 := setCell_rect h1 h2 g.loc.y g.loc.x 'X'
        have houtr : nl.y < (setCell m.data g.loc.y g.loc.x 'X').length := by
          rw [setCell_length]
          omega
        have houtw : nl.x <
            (((setCell m.data g.loc.y g.loc.x 'X').get? nl.y).getD []).length := by
          rw [rowLen_of_rect hrect2.1 hrect2.2 hb.2]
          exact hb.1
        rw [hdata2, getCell_setCell, getCell_setCell]
        by_cases hcn : y = nl.y ∧ x = nl.x
        · rw [if_pos ⟨hcn.1, hcn.2, houtr, houtw⟩]
          obtain ⟨hcy, hcx⟩ := hcn
          subst hcy; subst hcx
          cases n with
          | zero =>
            constructor
            · rintro ⟨hc | hc, _⟩
              · exact absurd hc (toChar_ne _).2.1
              · exact absurd hc (by simp [Map.occList])
            · rintro ⟨_, hG⟩
              exact absurd ⟨rfl, rfl⟩ (hG ⟨nl, g.dir⟩ hguard2)
          | succ n2 =>
            have hocc : (nl.y, nl.x) ∈ Map.occList (n2+1) m.walkStep := by
              rw [show Map.occList (n2+1) m.walkStep =
                  (nl.y, nl.x) :: Map.occList n2 m.walkStep.walkStep from by
                simp [Map.occList, hguard2]]
              exact List.mem_cons_self ..
            constructor
            · rintro ⟨_, hG⟩
              exact ⟨Or.inr (List.mem_cons.mpr (Or.inr hocc)), hG⟩
            · rintro ⟨_, hG⟩
              exact ⟨Or.inr hocc, hG⟩
        · rw [if_neg (fun hc => hcn ⟨hc.1, hc.2.1⟩)]
          by_cases hcg : y = g.loc.y ∧ x = g.loc.x
          · rw [if_pos ⟨hcg.1, hcg.2, hglr, hglw⟩]
            obtain ⟨hcy, hcx⟩ := hcg
            subst hcy; subst hcx
            constructor
            · rintro ⟨_, hG⟩
              exact ⟨Or.inr (List.mem_cons_self ..), hG⟩
            · rintro ⟨_, hG⟩
              exact ⟨Or.inl rfl, hG⟩
          · rw [if_neg (fun hc => hcg ⟨hc.1, hc.2.1⟩)]
            simp only [List.mem_cons, Prod.mk.injEq]
            constructor
            · rintro ⟨hX, hG⟩
              exact ⟨by tauto, hG⟩
            · rintro ⟨hX | hX | hX, hG⟩
              · exact ⟨Or.inl hX, hG⟩
              · exact absurd ⟨hX.1, hX.2⟩ hcg
              · exact ⟨Or.inr hX, hG⟩

/-- C1: on a well-formed grid holding exactly one guard and no stray visited
marks, if the full walk departs within `n` iterations then `count_steps`
returns the number of distinct cells the guard occupied, and the guard's
initial cell is among the occupied cells (hence included in the count). -/
theorem C1_full_walk_count (m : Map) (g0 : Guard) (n : Nat)
    (hInv : m.Inv) (hnoX : m.noX) (hg : m.guard = some g0)
    (hterm : (Map.walkFuel n m).guard = none) :
    (Map.walkFuel n m).countSteps = (Map.occList n m).toFinset.card ∧
      (g0.loc.y, g0.loc.x) ∈ Map.occList n m := by
  have hxok : m.xok := by
    intro g2 hg2
    obtain ⟨h1, h2, h3⟩ := hInv
    obtain ⟨hx2, hy2, _⟩ := h3 g2 hg2
    exact hnoX g2.loc.y hy2 g2.loc.x hx2
  cases n with
  | zero =>
    have h0 : m.guard = none := hterm
    rw [h0] at hg
    exact Option.noConfusion hg
  | succ n2 =>
    have hdims := walkFuel_dims (n2+1) m
    have hchar : ∀ y x, y < m.height → x < m.width →
        (getCell (Map.walkFuel (n2+1) m).data y x = 'X' ↔
          (y, x) ∈ Map.occList (n2+1) m) := by
      intro y x hy hx
      rw [walkFuel_X (n2+1) m hInv hxok y x hy hx]
      constructor
      · rintro ⟨hX | hX, _⟩
        · exact absurd hX (hnoX y hy x hx)
        · exact hX
      · intro hmem
        refine ⟨Or.inr hmem, ?_⟩
        intro g2 hg2
        rw [hterm] at hg2
        exact Option.noConfusion hg2
    constructor
    · calc (Map.walkFuel (n2+1) m).countSteps
          = ((Finset.range (Map.walkFuel (n2+1) m).height ×ˢ
              Finset.range (Map.walkFuel (n2+1) m).width).filter
              fun p => getCell (Map.walkFuel (n2+1) m).data p.1 p.2 = 'X').card :=
            nested_count_card (Map.walkFuel (n2+1) m).height
              (Map.walkFuel (n2+1) m).width
              (fun c r => getCell (Map.walkFuel (n2+1) m).data c r = 'X')
        _ = ((Finset.range m.height ×ˢ Finset.range m.width).filter
              fun p => getCell (Map.walkFuel (n2+1) m).data p.1 p.2 = 'X').card := by
            rw [hdims.1, hdims.2]
        _ = (Map.occList (n2+1) m).toFinset.card := by
            apply congrArg Finset.card
            apply Finset.ext
            intro p
            rw [Finset.mem_filter, Finset.mem_product, Finset.mem_range, Finset.mem_range,
              List.mem_toFinset]
            constructor
            · rintro ⟨⟨hy, hx⟩, hX⟩
              exact (hchar p.1 p.2 hy hx).mp hX
            · intro hmem
              have hin := occList_inBounds (n2+1) m hInv p hmem
              exact ⟨⟨hin.1, hin.2⟩, (hchar p.1 p.2 hin.1 hin.2).mpr hmem⟩
    · rw [show Map.occList (n2+1) m = (g0.loc.y, g0.loc.x) :: Map.occList n2 m.walkStep from
        by simp [Map.occList, hg]]
      exact List.mem_cons_self ..

/-- Witness for `C1_full_walk_count` on a concrete 1 × 2 grid. -/
theorem C1_full_walk_count_witness :
    tinyMap.Inv ∧ tinyMap.noX ∧ tinyMap.guard = some ⟨⟨0, 0⟩, Direction.up⟩ ∧
      (Map.walkFuel 1 tinyMap).guard = none ∧
      ((Map.walkFuel 1 tinyMap).countSteps = (Map.occList 1 tinyMap).toFinset.card ∧
        ((⟨⟨0, 0⟩, Direction.up⟩ : Guard).loc.y,
          (⟨⟨0, 0⟩, Direction.up⟩ : Guard).loc.x) ∈ Map.occList 1 tinyMap) :=
  ⟨by decide, by decide, by decide, by decide,
    C1_full_walk_count tinyMap ⟨⟨0, 0⟩, Direction.up⟩ 1 (by decide) (by decide)
      (by decide) (by decide)⟩

/-- C4: the three step cases of the walk.  A candidate cell outside the grid
(including a coordinate underflow) ends the traversal normally by clearing
the guard; an obstacle ahead keeps the position and rotates the direction 90
degrees clockwise; otherwise the guard moves into the candidate cell keeping
its direction and the vacated cell is marked visited. -/
theorem C4_step_function_cases (m : Map) (g : Guard) (hInv : m.Inv)
    (hg : m.guard = some g) :
    (g.loc.delta (g.dir.signum).2 (g.dir.signum).1 = none →
      (m.walkStep).guard = none) ∧
    (∀ nl, g.loc.delta (g.dir.signum).2 (g.dir.signum).1 = some nl →
      ¬(nl.x < m.width ∧ nl.y < m.height) → (m.walkStep).guard = none) ∧
    (∀ nl, g.loc.delta (g.dir.signum).2 (g.dir.signum).1 = some nl →
      (nl.x < m.width ∧ nl.y < m.height) → getCell m.data nl.y nl.x = '#' →
      (m.walkStep).guard = some ⟨g.loc, g.dir.rotate⟩) ∧
    (∀ nl, g.loc.delta (g.dir.signum).2 (g.dir.signum).1 = some nl →
      (nl.x < m.width ∧ nl.y < m.height) → getCell m.data nl.y nl.x ≠ '#' →
      (m.walkStep).guard = some ⟨nl, g.dir⟩ ∧
        getCell (m.walkStep).data g.loc.y g.loc.x = 'X') := by
  obtain ⟨h1, h2, h3⟩ := hInv
  obtain ⟨hgx, hgy, hgc⟩ := h3 g (mem_guard_of_eq hg)
  have hglr : g.loc.y < m.data.length := by omega
  have hglw : g.loc.x < ((m.data.get? g.loc.y).getD []).length := by
    rw [rowLen_of_rect h1 h2 hgy]
    exact hgx
  rcases walkStep_cases m g hg with ⟨hd, hstep⟩ | ⟨nl0, hd, hb0, hstep⟩ |
      ⟨nl0, hd, hb0, ho0, hstep⟩ | ⟨nl0, hd, hb0, ho0, hstep⟩
  · refine ⟨fun _ => by rw [hstep], fun nl hnl _ => by rw [hstep], ?_, ?_⟩
    · intro nl hnl _ _
      rw [hd] at hnl
      exact Option.noConfusion hnl
    · intro nl hnl _ _
      rw [hd] at hnl
      exact Option.noConfusion hnl
  · refine ⟨?_, fun nl _ _ => by rw [hstep], ?_, ?_⟩
    · intro h
      rw [hd] at h
      exact Option.noConfusion h
    · intro nl hnl hbb _
      rw [hd] at hnl
      injection hnl with hnl
      subst hnl
      exact absurd hbb hb0
    · intro nl hnl hbb _
      rw [hd] at hnl
      injection hnl with hnl
      subst hnl
      exact absurd hbb hb0
  · refine ⟨?_, ?_, fun nl _ _ _ => by rw [hstep], ?_⟩
    · intro h
      rw [hd] at h
      exact Option.noConfusion h
    · intro nl hnl hnb
      rw [hd] at hnl
      injection hnl with hnl
      subst hnl
      exact absurd hb0 hnb
    · intro nl hnl _ hne
      rw [hd] at hnl
      injection hnl with hnl
      subst hnl
      exact absurd ho0 hne
  · refine ⟨?_, ?_, ?_, ?_⟩
    · intro h
      rw [hd] at h
      exact Option.noConfusion h
    · intro nl hnl hnb
      rw [hd] at hnl
      injection hnl with hnl
      subst hnl
      exact absurd hb0 hnb
    · intro nl hnl _ ho
      rw [hd] at hnl
      injection hnl with hnl
      subst hnl
      exact absurd ho ho0
    · intro nl hnl _ _
      rw [hd] at hnl
      injection hnl with hnl
      subst hnl
      have hne := delta_ne_self g nl0 hd
      constructor
      · rw [hstep]
      · rw [show (m.walkStep).data =
            setCell (setCell m.data g.loc.y g.loc.x 'X') nl0.y nl0.x g.dir.toChar from
            by rw [hstep], getCell_setCell, getCell_setCell]
        rw [if_neg (fun hc => hne ⟨hc.1.symm, hc.2.1.symm⟩)]
        rw [if_pos ⟨rfl, rfl, hglr, hglw⟩]

/-- Witness for `C4_step_function_cases` on a concrete 1 × 2 grid. -/
theorem C4_step_function_cases_witness :
    tinyMap.Inv ∧ tinyMap.guard = some ⟨⟨0, 0⟩, Direction.up⟩ ∧
      (((⟨⟨0, 0⟩, Direction.up⟩ : Guard).loc.delta
          ((⟨⟨0, 0⟩, Direction.up⟩ : Guard).dir.signum).2
          ((⟨⟨0, 0⟩, Direction.up⟩ : Guard).dir.signum).1 = none →
        (tinyMap.walkStep).guard = none) ∧
      (∀ nl, (⟨⟨0, 0⟩, Direction.up⟩ : Guard).loc.delta
          ((⟨⟨0, 0⟩, Direction.up⟩ : Guard).dir.signum).2
          ((⟨⟨0, 0⟩, Direction.up⟩ : Guard).dir.signum).1 = some nl →
        ¬(nl.x < tinyMap.width ∧ nl.y < tinyMap.height) →
        (tinyMap.walkStep).guard = none) ∧
      (∀ nl, (⟨⟨0, 0⟩, Direction.up⟩ : Guard).loc.delta
          ((⟨⟨0, 0⟩, Direction.up⟩ : Guard).dir.signum).2
          ((⟨⟨0, 0⟩, Direction.up⟩ : Guard).dir.signum).1 = some nl →
        (nl.x < tinyMap.width ∧ nl.y < tinyMap.height) →
        getCell tinyMap.data nl.y nl.x = '#' →
        (tinyMap.walkStep).guard = some ⟨(⟨⟨0, 0⟩, Direction.up⟩ : Guard).loc,
          (⟨⟨0, 0⟩, Direction.up⟩ : Guard).dir.rotate⟩) ∧
      (∀ nl, (⟨⟨0, 0⟩, Direction.up⟩ : Guard).loc.delta
          ((⟨⟨0, 0⟩, Direction.up⟩ : Guard).dir.signum).2
          ((⟨⟨0, 0⟩, Direction.up⟩ : Guard).dir.signum).1 = some nl →
        (nl.x < tinyMap.width ∧ nl.y < tinyMap.height) →
        getCell tinyMap.data nl.y nl.x ≠ '#' →
        (tinyMap.walkStep).guard = some ⟨nl, (⟨⟨0, 0⟩, Direction.up⟩ : Guard).dir⟩ ∧
          getCell (tinyMap.walkStep).data
            (⟨⟨0, 0⟩, Direction.up⟩ : Guard).loc.y
            (⟨⟨0, 0⟩, Direction.up⟩ : Guard).loc.x = 'X')) :=
  ⟨by decide, by decide,
    C4_step_function_cases tinyMap ⟨⟨0, 0⟩, Direction.up⟩ (by decide) (by decide)⟩

/-- C2: `track_guard` records the (position, direction) pair before every
step; it reports a cycle (a `Some` return) exactly when some pair recurs
before departure, it stops at the first such recurrence (the returned
visited set holds precisely the states recorded strictly before the first
revisited index), and it reports no cycle (the `None` return) exactly when
the trajectory departs — that is, when the guard's candidate next position
falls outside the grid. -/
theorem C2_track_guard_cycle (m : Map) (g0 : Guard) (hInv : m.Inv)
    (hg : m.guard = some g0) :
    (∀ vis, m.trackGuard = TrackResult.cycleHit vis →
        ∃ j, repAt m.obstAt m.width m.height g0 j ∧
          (∀ i, i < j → ¬ repAt m.obstAt m.width m.height g0 i) ∧
          (∀ x, x ∈ vis ↔
            ∃ i, i < j ∧ traj m.obstAt m.width m.height i (some g0) = some x)) ∧
    ((∃ vis, m.trackGuard = TrackResult.cycleHit vis) ↔
        ∃ j, repAt m.obstAt m.width m.height g0 j) ∧
    (m.trackGuard = TrackResult.gone ↔
        ∃ k, traj m.obstAt m.width m.height k (some g0) = none) := by
  obtain ⟨s1, s2, s3⟩ := trackGuard_spec m g0 hInv hg
  refine ⟨fun vis h => (s1 vis h).imp (fun j hj => ⟨hj.1, hj.2.1, hj.2.2.1⟩), ?_, ?_⟩
  · constructor
    · rintro ⟨vis, h⟩
      obtain ⟨j, hj, _⟩ := s1 vis h
      exact ⟨j, hj⟩
    · rintro ⟨j, hrep⟩
      rcases s3 with h | h
      · exact h
      · exfalso
        obtain ⟨k, _, hdep⟩ := s2 h
        exact repAt_no_depart hrep (k+1) hdep
  · constructor
    · intro h
      obtain ⟨k, _, hdep⟩ := s2 h
      exact ⟨k+1, hdep⟩
    · rintro ⟨k, hdep⟩
      rcases s3 with ⟨vis, h⟩ | h
      · exfalso
        obtain ⟨j, hrep, _⟩ := s1 vis h
        exact repAt_no_depart hrep k hdep
      · exact h

/-- Witness for `C2_track_guard_cycle` on a concrete 1 × 2 grid. -/
theorem C2_track_guard_cycle_witness :
    tinyMap.Inv ∧ tinyMap.guard = some ⟨⟨0, 0⟩, Direction.up⟩ ∧
      ((∀ vis, tinyMap.trackGuard = TrackResult.cycleHit vis →
          ∃ j, repAt tinyMap.obstAt tinyMap.width tinyMap.height
              ⟨⟨0, 0⟩, Direction.up⟩ j ∧
            (∀ i, i < j → ¬ repAt tinyMap.obstAt tinyMap.width tinyMap.height
              ⟨⟨0, 0⟩, Direction.up⟩ i) ∧
            (∀ x, x ∈ vis ↔ ∃ i, i < j ∧
              traj tinyMap.obstAt tinyMap.width tinyMap.height i
                (some ⟨⟨0, 0⟩, Direction.up⟩) = some x)) ∧
      ((∃ vis, tinyMap.trackGuard = TrackResult.cycleHit vis) ↔
          ∃ j, repAt tinyMap.obstAt tinyMap.width tinyMap.height
            ⟨⟨0, 0⟩, Direction.up⟩ j) ∧
      (tinyMap.trackGuard = TrackResult.gone ↔
          ∃ k, traj tinyMap.obstAt tinyMap.width tinyMap.height k
            (some ⟨⟨0, 0⟩, Direction.up⟩) = none)) :=
  ⟨by decide, by decide,
    C2_track_guard_cycle tinyMap ⟨⟨0, 0⟩, Direction.up⟩ (by decide) (by decide)⟩

/-- C7: if the cycle-detection walk reports no cycle, the full walk on the
same grid terminates by departure. -/
theorem C7_no_cycle_walk_departs (m : Map) (g0 : Guard) (hInv : m.Inv)
    (hg : m.guard = some g0) (hnc : m.trackGuard = TrackResult.gone) :
    ∃ n, (Map.walkFuel n m).guard = none := by
  obtain ⟨_, s2, _⟩ := trackGuard_spec m g0 hInv hg
  obtain ⟨k, _, hdep⟩ := s2 hnc
  refine ⟨k+1, ?_⟩
  rw [walkFuel_traj (k+1) m g0 m.obstAt m.width m.height hInv hg rfl rfl
    (fun _ _ => rfl)]
  exact hdep

/-- Witness for `C7_no_cycle_walk_departs` on a concrete 1 × 2 grid. -/
theorem C7_no_cycle_walk_departs_witness :
    tinyMap.Inv ∧ tinyMap.guard = some ⟨⟨0, 0⟩, Direction.up⟩ ∧
      tinyMap.trackGuard = TrackResult.gone ∧
      ∃ n, (Map.walkFuel n tinyMap).guard = none :=
  ⟨by decide, by decide, by decide,
    C7_no_cycle_walk_departs tinyMap ⟨⟨0, 0⟩, Direction.up⟩ (by decide) (by decide)
      (by decide)⟩

/-- C8: on a well-formed `height × width` grid with a guard, the
cycle-detection walk terminates within its `height * width * 4 + 1` iteration
budget — it either detects a cycle, having recorded at most
`height * width * 4` states, or reports departure; the budget is never
exhausted. -/
theorem C8_track_guard_terminates (m : Map) (g0 : Guard) (hInv : m.Inv)
    (hg : m.guard = some g0) :
    ((∃ vis, m.trackGuard = TrackResult.cycleHit vis) ∨
        m.trackGuard = TrackResult.gone) ∧
    (∀ vis, m.trackGuard = TrackResult.cycleHit vis →
        vis.length ≤ m.height * m.width * 4) ∧
    m.trackGuard ≠ TrackResult.fuelOut := by
  obtain ⟨s1, s2, s3⟩ := trackGuard_spec m g0 hInv hg
  refine ⟨s3, fun vis h => trackGuard_vis_len m g0 hInv hg vis h, ?_⟩
  rcases s3 with ⟨vis, h⟩ | h <;> rw [h] <;> exact fun hc => TrackResult.noConfusion hc

/-- Witness for `C8_track_guard_terminates` on a concrete 1 × 2 grid. -/
theorem C8_track_guard_terminates_witness :
    tinyMap.Inv ∧ tinyMap.guard = some ⟨⟨0, 0⟩, Direction.up⟩ ∧
      (((∃ vis, tinyMap.trackGuard = TrackResult.cycleHit vis) ∨
          tinyMap.trackGuard = TrackResult.gone) ∧
        (∀ vis, tinyMap.trackGuard = TrackResult.cycleHit vis →
          vis.length ≤ tinyMap.height * tinyMap.width * 4) ∧
        tinyMap.trackGuard ≠ TrackResult.fuelOut) :=
  ⟨by decide, by decide,
    C8_track_guard_terminates tinyMap ⟨⟨0, 0⟩, Direction.up⟩ (by decide) (by decide)⟩

/-- C3: `find_traps` counts exactly the cells that are open in the original
grid and whose single-obstacle replacement makes the cycle-detection walk,
rerun from the guard's original start state, report a cycle; the guard's own
starting cell is never among the counted candidates, and on every candidate
the reported cycle is a genuine revisited (position, direction) state of the
modified grid's dynamics. -/
theorem C3_find_traps (m : Map) (g0 : Guard) (hInv : m.Inv) (hg : m.guard = some g0)
    (hstart : getCell m.data g0.loc.y g0.loc.x ≠ '.') :
    m.findTraps =
      ((Finset.range m.height ×ˢ Finset.range m.width).filter fun p =>
        getCell m.data p.1 p.2 = '.' ∧
          (Map.trackGuard { m with data := setCell m.data p.1 p.2 '#' }).isSome = true).card ∧
    (g0.loc.y, g0.loc.x) ∉
      ((Finset.range m.height ×ˢ Finset.range m.width).filter fun p =>
        getCell m.data p.1 p.2 = '.' ∧
          (Map.trackGuard { m with data := setCell m.data p.1 p.2 '#' }).isSome = true) ∧
    (∀ y x, y < m.height → x < m.width → getCell m.data y x = '.' →
      ((Map.trackGuard { m with data := setCell m.data y x '#' }).isSome = true ↔
        ∃ j, repAt (Map.obstAt { m with data := setCell m.data y x '#' })
          m.width m.height g0 j)) := by
  obtain ⟨h1, h2, h3⟩ := hInv
  obtain ⟨hgx, hgy, hgc⟩ := h3 g0 (mem_guard_of_eq hg)
  refine ⟨?_, ?_, ?_⟩
  · have hfold : m.findTraps =
        (List.range m.height).foldl
          (fun acc col => (List.range m.width).foldl
            (fun a2 row => if getCell m.data col row = '.' ∧
                (Map.trackGuard { m with data := setCell m.data col row '#' }).isSome = true
              then a2 + 1 else a2) acc) 0 := by
      unfold Map.findTraps
      apply List.foldl_ext
      intro acc col _
      apply List.foldl_ext
      intro a2 row _
      by_cases hd : getCell m.data col row = '.'
      · by_cases hs : (Map.trackGuard { m with data := setCell m.data col row '#' }).isSome = true
        · simp [hd, hs]
        · simp [hd, hs]
      · simp [hd]
    rw [hfold]
    exact nested_count_card m.height m.width
      (fun c r => getCell m.data c r = '.' ∧
        (Map.trackGuard { m with data := setCell m.data c r '#' }).isSome = true)
  · intro hmem
    rw [Finset.mem_filter] at hmem
    exact hstart hmem.2.1
  · intro y x hy hx hdot
    have hgne : ¬(g0.loc.y = y ∧ g0.loc.x = x) := by
      rintro ⟨hh1, hh2⟩
      rw [hh1, hh2] at hstart
      exact hstart hdot
    have hsimInv : ({ m with data := setCell m.data y x '#' } : Map).Inv := by
      refine ⟨(setCell_rect h1 h2 _ _ _).1, (setCell_rect h1 h2 _ _ _).2, ?_⟩
      intro g2 hg2
      have hg2m : m.guard = some g2 := hg2
      rw [hg] at hg2m
      injection hg2m with hg2m
      subst hg2m
      refine ⟨hgx, hgy, ?_⟩
      rw [getCell_setCell, if_neg (fun hc => hgne ⟨hc.1, hc.2.1⟩)]
      exact hgc
    obtain ⟨t1, t2, t3⟩ :=
      trackGuard_spec { m with data := setCell m.data y x '#' } g0 hsimInv hg
    constructor
    · intro hsome
      cases htr : Map.trackGuard { m with data := setCell m.data y x '#' } with
      | cycleHit vis =>
        obtain ⟨j, hj, _⟩ := t1 vis htr
        exact ⟨j, hj⟩
      | noGuard vis =>
        exact absurd htr
          (trackFuel_ne_noGuard _ { m with data := setCell m.data y x '#' } g0 [] vis hg)
      | gone =>
        rw [htr] at hsome
        simp [TrackResult.isSome] at hsome
      | fuelOut =>
        rw [htr] at hsome
        simp [TrackResult.isSome] at hsome
    · rintro ⟨j, hrep⟩
      rcases t3 with ⟨vis, htr⟩ | htr
      · rw [htr]
        rfl
      · exfalso
        obtain ⟨k, _, hdep⟩ := t2 htr
        exact repAt_no_depart hrep (k+1) hdep

/-- Witness for `C3_find_traps` on a concrete 1 × 2 grid. -/
theorem C3_find_traps_witness :
    tinyMap.Inv ∧ tinyMap.guard = some ⟨⟨0, 0⟩, Direction.up⟩ ∧
      getCell tinyMap.data (⟨⟨0, 0⟩, Direction.up⟩ : Guard).loc.y
        (⟨⟨0, 0⟩, Direction.up⟩ : Guard).loc.x ≠ '.' ∧
      (tinyMap.findTraps =
        ((Finset.range tinyMap.height ×ˢ Finset.range tinyMap.width).filter fun p =>
          getCell tinyMap.data p.1 p.2 = '.' ∧
            (Map.trackGuard
              { tinyMap with
                data := setCell tinyMap.data p.1 p.2 '#' }).isSome = true).card ∧
      ((⟨⟨0, 0⟩, Direction.up⟩ : Guard).loc.y,
          (⟨⟨0, 0⟩, Direction.up⟩ : Guard).loc.x) ∉
        ((Finset.range tinyMap.height ×ˢ Finset.range tinyMap.width).filter fun p =>
          getCell tinyMap.data p.1 p.2 = '.' ∧
            (Map.trackGuard
              { tinyMap with
                data := setCell tinyMap.data p.1 p.2 '#' }).isSome = true) ∧
      (∀ y x, y < tinyMap.height → x < tinyMap.width → getCell tinyMap.data y x = '.' →
        ((Map.trackGuard
            { tinyMap with data := setCell tinyMap.data y x '#' }).isSome = true ↔
          ∃ j, repAt (Map.obstAt { tinyMap with data := setCell tinyMap.data y x '#' })
            tinyMap.width tinyMap.height ⟨⟨0, 0⟩, Direction.up⟩ j))) :=
  ⟨by decide, by decide, by decide,
    C3_find_traps tinyMap ⟨⟨0, 0⟩, Direction.up⟩ (by decide) (by decide) (by decide)⟩

/-- C5 counterexample: on a malformed grid with no guard marker, `Map::new`
does not report a parse error — it succeeds and returns a usable `Map`
whose guard is simply absent. -/
theorem C5_parse_cex :
    Map.new noGuardRows = some ⟨noGuardRows, 2, 2, none⟩ := by
  rfl

/-- C5 amended: `Map::new` validates nothing.  A grid with no guard marker
parses into a map with no guard; with several markers the first one in
row-major order wins; a longer later row is accepted with its extra cells
ignored; only a later row shorter than the first aborts — by an
out-of-bounds index panic during the guard scan (modelled as `none`), not by
a descriptive parse error — as does empty input (the `data[0]` panic). -/
theorem C5_parse_amended :
    Map.new noGuardRows = some ⟨noGuardRows, 2, 2, none⟩ ∧
    Map.new twoGuardRows = some ⟨twoGuardRows, 1, 2, some ⟨⟨0, 0⟩, Direction.up⟩⟩ ∧
    Map.new longRowRows = some ⟨longRowRows, 2, 2, some ⟨⟨1, 0⟩, Direction.up⟩⟩ ∧
    Map.new shortRowRows = none ∧
    Map.new [] = none :=
  ⟨rfl, rfl, rfl, rfl, rfl⟩

theorem walkFuel_add (a b : Nat) : ∀ m : Map,
    Map.walkFuel (a + b) m = Map.walkFuel b (Map.walkFuel a m) := by
  induction a with
  | zero => intro m; rw [Nat.zero_add]; rfl
  | succ a ih =>
    intro m
    rw [Nat.succ_add]
    show Map.walkFuel (a + b) m.walkStep = _
    rw [ih]
    rfl

/-- C6 counterexample: with the guard boxed in by obstacles on all four
sides, four iterations of the walk return the map to exactly its initial
state with the guard still present — the walk loops forever instead of
failing after a capped number of rotations. -/
theorem C6_rotation_cap_cex :
    Map.walkFuel 4 boxedMap = boxedMap ∧ boxedMap.guard ≠ none := by
  exact ⟨by decide, by decide⟩

/-- C6 amended: the walk has no rotation cap and no failure state.  On the
boxed-in map it revisits its full starting state every four iterations, so
no number of iterations ever clears the guard: `Map::walk` silently loops
forever on such input (only `track_guard` would stop, by detecting the
repeated state). -/
theorem C6_rotation_cap_amended :
    Map.walkFuel 4 boxedMap = boxedMap ∧
    ∀ n, (Map.walkFuel n boxedMap).guard ≠ none := by
  have h4 : Map.walkFuel 4 boxedMap = boxedMap := by decide
  refine ⟨h4, ?_⟩
  have hmul : ∀ q, Map.walkFuel (4 * q) boxedMap = boxedMap := by
    intro q
    induction q with
    | zero => rfl
    | succ q ih =>
      rw [show 4 * (q + 1) = 4 * q + 4 from by omega, walkFuel_add, ih, h4]
  intro n
  rw [show n = 4 * (n / 4) + n % 4 from by omega, walkFuel_add, hmul (n / 4)]
  have hlt : n % 4 = 0 ∨ n % 4 = 1 ∨ n % 4 = 2 ∨ n % 4 = 3 := by omega
  rcases hlt with h | h | h | h <;> rw [h] <;> decide

/-- C10: the trap finder never touches the map it is called on.  In the
state-passing rendition that threads the receiver through the candidate
loop, the map coming out is the map that went in — every grid cell, both
dimensions and the stored guard included — and the count agrees with
`find_traps`. -/
theorem C10_find_traps_frame (m : Map) :
    (m.findTrapsSt).2 = m ∧ (m.findTrapsSt).1 = m.findTraps ∧
    (m.findTrapsSt).2.data = m.data ∧ (m.findTrapsSt).2.height = m.height ∧
    (m.findTrapsSt).2.width = m.width ∧ (m.findTrapsSt).2.guard = m.guard := by
  have inner : ∀ (col : Nat) (l : List Nat) (a : Nat),
      (l.foldl (fun st2 row =>
          if getCell st2.2.data col row = '.' then
            if (Map.trackGuard { st2.2 with data := setCell st2.2.data col row '#' }).isSome
            then (st2.1 + 1, st2.2) else (st2.1, st2.2)
          else st2) ((a, m) : Nat × Map))
        = (l.foldl (fun a2 row =>
            if getCell m.data col row = '.' then
              if (Map.trackGuard { m with data := setCell m.data col row '#' }).isSome
              then a2 + 1 else a2
            else a2) a, m) := by
    intro col l
    induction l with
    | nil => intro a; rfl
    | cons r rs ih =>
      intro a
      rw [List.foldl_cons, List.foldl_cons]
      by_cases hd : getCell m.data col r = '.'
      · by_cases hs :
          (Map.trackGuard { m with data := setCell m.data col r '#' }).isSome = true
        · simp only [hd, hs, if_true, if_pos]
          exact ih (a + 1)
        · simp only [hd, if_true, if_pos, hs, if_false, if_neg, Bool.not_eq_true]
          exact ih a
      · simp only [hd, if_false, if_neg]
        exact ih a
  have outer : ∀ (l : List Nat) (a : Nat),
      (l.foldl (fun st col =>
          (List.range m.width).foldl (fun st2 row =>
            if getCell st2.2.data col row = '.' then
              if (Map.trackGuard
                  { st2.2 with data := setCell st2.2.data col row '#' }).isSome
              then (st2.1 + 1, st2.2) else (st2.1, st2.2)
            else st2) st) ((a, m) : Nat × Map))
        = (l.foldl (fun acc col =>
            (List.range m.width).foldl (fun a2 row =>
              if getCell m.data col row = '.' then
                if (Map.trackGuard { m with data := setCell m.data col row '#' }).isSome
                then a2 + 1 else a2
              else a2) acc) a, m) := by
    intro l
    induction l with
    | nil => intro a; rfl
    | cons c cs ih =>
      intro a
      rw [List.foldl_cons, List.foldl_cons, inner c (List.range m.width) a, ih]
  have hmain : m.findTrapsSt = (m.findTraps, m) := outer (List.range m.height) 0
  rw [hmain]
  exact ⟨rfl, rfl, rfl, rfl, rfl, rfl⟩

set_option maxRecDepth 100000

set_option maxHeartbeats 4000000

/-- C9: the canonical 10 × 10 sample grid parses to a map with the guard at
column 4 of row 6 facing up and carries 8 obstacles; the full walk departs
within the state-space bound and visits 41 distinct cells, and the trap
finder reports 6 cycle-inducing obstacle placements. -/
theorem C9_sample_values :
    Map.new sampleRows = some sampleMap ∧
    sampleMap.guard = some ⟨⟨4, 6⟩, Direction.up⟩ ∧
    sampleMap.height = 10 ∧ sampleMap.width = 10 ∧
    (sampleRows.map (fun row => row.countP (fun c => c == '#'))).sum = 8 ∧
    (Map.walkFuel 401 sampleMap).guard = none ∧
    (Map.walkFuel 401 sampleMap).countSteps = 41 ∧
    sampleMap.findTraps = 6 :=
  ⟨rfl, rfl, rfl, rfl, rfl, rfl, rfl, rfl⟩

end Day06
